import Mathlib

/-!
# SearchEngine (assets/js/search.js)

A shallow embedding of the client-side search engine: strings are sequences of
UTF-16 code units, the DOM is an explicit record, and the ECMAScript case
conversions that the code calls are taken as a `Platform` so that every general
theorem holds for whatever case tables the host implements.
-/

namespace SearchEngine

/-! ## Strings -/

/-- A UTF-16 code unit. -/
abbrev CodeUnit := Nat

/-- An ECMAScript string value: a finite sequence of code units. -/
abbrev JSString := List CodeUnit

/-- The code units of a literal (used for ASCII literals of the source). -/
def js (s : String) : JSString := s.toList.map Char.toNat

/-- Case conversions supplied by the host: `String.prototype.toLowerCase`,
`String.prototype.toUpperCase` and the `Canonicalize` operation that a regular
expression with the `i` flag applies to each code unit. -/
structure Platform where
  toLowerCase : JSString → JSString
  toUpperCase : JSString → JSString
  canonicalize : CodeUnit → CodeUnit

/-- Lower-casing of one code unit in the sample platform: `A`-`Z` go to `a`-`z`, and
U+0130 (capital I with dot above) goes to `i` followed by U+0307, as in the
unconditional mappings of Unicode SpecialCasing. -/
def sampleLowerUnit (c : CodeUnit) : JSString :=
  if 65 ≤ c ∧ c ≤ 90 then [c + 32] else if c = 304 then [105, 775] else [c]

/-- Upper-casing of one code unit in the sample platform: `a`-`z` go to `A`-`Z`. -/
def sampleUpperUnit (c : CodeUnit) : CodeUnit :=
  if 97 ≤ c ∧ c ≤ 122 then c - 32 else c

/-- A concrete platform for evaluating the code on explicit inputs. It agrees with
ECMAScript on strings made of ASCII code units and U+0130. -/
def samplePlatform : Platform where
  toLowerCase s := s.flatMap sampleLowerUnit
  toUpperCase s := s.map sampleUpperUnit
  canonicalize := sampleUpperUnit

/-- The code units matched by `\s` in a regular expression; the same set is what
`String.prototype.trim` strips (WhiteSpace and LineTerminator). -/
def isWhiteSpace (c : CodeUnit) : Bool :=
  c == 9 || c == 10 || c == 11 || c == 12 || c == 13 || c == 32 || c == 160 ||
  c == 5760 || (8192 ≤ c && c ≤ 8202) || c == 8232 || c == 8233 || c == 8239 ||
  c == 8287 || c == 12288 || c == 65279

/-- The string method `s.trim()`. -/
def trim (s : JSString) : JSString :=
  ((s.dropWhile isWhiteSpace).reverse.dropWhile isWhiteSpace).reverse

/-- Worker of `split`: the flag tells whether the previous code unit was white
space, so that a maximal run of white space is one separator. -/
def splitAux : Bool → JSString → List JSString
  | _, [] => [[]]
  | prevWs, c :: cs =>
    if isWhiteSpace c then
      if prevWs then splitAux true cs else [] :: splitAux true cs
    else
      match splitAux false cs with
      | [] => [[c]]
      | t :: ts => (c :: t) :: ts

/-- The call `s.split(/\s+/)`: the pieces between maximal runs of white space, with
an empty piece before a leading run and after a trailing run. -/
def split (s : JSString) : List JSString := splitAux false s

/-- The string method `s.includes(sub)`. -/
def includes (s sub : JSString) : Bool := decide (sub <:+: s)

/-- Position of the first occurrence of `sub` in `s`, if any. -/
def firstIndex (s sub : JSString) : Option Nat :=
  match s with
  | [] => if sub = [] then some 0 else none
  | c :: cs => if sub <+: c :: cs then some 0 else (firstIndex cs sub).map (· + 1)

/-- The string method `s.indexOf(sub)`: the first position, or `-1`. -/
def indexOf (s sub : JSString) : Int :=
  match firstIndex s sub with
  | some i => (i : Int)
  | none => -1

/-- The string method `s.substring(a, b)`: both arguments are clamped to
`[0, s.length]` and swapped when out of order. -/
def substring (s : JSString) (a b : Int) : JSString :=
  let len : Int := s.length
  let a1 := min (max a 0) len
  let b1 := min (max b 0) len
  let lo := min a1 b1
  let hi := max a1 b1
  (s.drop lo.toNat).take (hi - lo).toNat

/-! ## Data model -/

/-- One record of `/search.json`. -/
structure Document where
  title : JSString
  content : JSString
  category : JSString
  tags : List JSString
  url : JSString
  date : JSString
deriving DecidableEq, Repr

/-- The object `{ ...item, score }` built by `search`. -/
structure ScoredDocument extends Document where
  score : Nat
deriving DecidableEq, Repr

/-! ## Scorer and ranker (`search`) -/

/-- Body of the `map` callback of `search`: the running `score` of one item, for
the query and the word list computed from it. -/
def scoreItem (P : Platform) (query : JSString) (words : List JSString)
    (item : Document) : Nat :=
  let score := 0
  let titleLower := P.toLowerCase item.title
  let contentLower := P.toLowerCase item.content
  let categoryLower := P.toLowerCase item.category
  let tagsLower := item.tags.map P.toLowerCase
  let score := if titleLower = query then score + 100 else score
  let score := if includes titleLower query then score + 50 else score
  let score := if includes categoryLower query then score + 30 else score
  let score := tagsLower.foldl
    (fun score tag => if includes tag query then score + 40 else score) score
  let score := words.foldl
    (fun score word =>
      if word.length < 2 then score
      else
        let score := if includes titleLower word then score + 10 else score
        let score := if includes contentLower word then score + 5 else score
        tagsLower.foldl
          (fun score tag => if includes tag word then score + 8 else score) score)
    score
  score

/-- Comparator passed to `sort`: `(a, b) => b.score - a.score`. -/
def compareScore (a b : ScoredDocument) : Int := (b.score : Int) - (a.score : Int)

/-- Insertion of `x` in front of the first element it does not have to follow. -/
def insertOrdered (x : ScoredDocument) : List ScoredDocument → List ScoredDocument
  | [] => [x]
  | y :: ys => if compareScore x y ≤ 0 then x :: y :: ys else y :: insertOrdered x ys

/-- The method `Array.prototype.sort` with `compareScore`. The ECMAScript sort is
stable, so for a consistent comparator its result is the one of this stable
insertion sort. -/
def sortByScore : List ScoredDocument → List ScoredDocument
  | [] => []
  | x :: xs => insertOrdered x (sortByScore xs)

/-- The `map` stage of `search`: every item of the index with its score. -/
def scoreAll (P : Platform) (searchData : List Document) (query : JSString) :
    List ScoredDocument :=
  let words := split (P.toLowerCase query)
  searchData.map (fun item => { toDocument := item, score := scoreItem P query words item })

/-- The method `SearchEngine.search(query)` over the loaded index `searchData`. -/
def search (P : Platform) (searchData : List Document) (query : JSString) :
    List ScoredDocument :=
  sortByScore ((scoreAll P searchData query).filter (fun item => decide (item.score > 0)))

/-! ## Scoring table of the specification -/

/-- Points earned when a condition holds. -/
def points (b : Bool) (n : Nat) : Nat := if b then n else 0

/-- The query tokens of the per-word pass: pieces of length at least 2. -/
def tokens (query : JSString) : List JSString :=
  (split query).filter (fun w => decide (2 ≤ w.length))

/-- The score as the specification's table words it: a sum of the bonus of every
rule that matches. -/
def specScore (P : Platform) (query : JSString) (item : Document) : Nat :=
  points (decide (P.toLowerCase item.title = query)) 100
  + points (includes (P.toLowerCase item.title) query) 50
  + points (includes (P.toLowerCase item.category) query) 30
  + 40 * (item.tags.filter (fun t => includes (P.toLowerCase t) query)).length
  + ((tokens query).map (fun w =>
      points (includes (P.toLowerCase item.title) w) 10
      + points (includes (P.toLowerCase item.content) w) 5
      + 8 * (item.tags.filter (fun t => includes (P.toLowerCase t) w)).length)).sum

/-- The score `search` computes for one item of the index. -/
def scoreOf (P : Platform) (query : JSString) (item : Document) : Nat :=
  scoreItem P query (split (P.toLowerCase query)) item

/-- The matching condition as the claim words it: the query is contained in the
lower-cased title, category or a tag, or a token of the query (a piece of length
at least 2 of the query as given) is contained in the lower-cased title, content
or a tag. -/
def matchesQuery (P : Platform) (query : JSString) (item : Document) : Bool :=
  includes (P.toLowerCase item.title) query
  || includes (P.toLowerCase item.category) query
  || item.tags.any (fun t => includes (P.toLowerCase t) query)
  || (tokens query).any (fun w =>
      includes (P.toLowerCase item.title) w
      || includes (P.toLowerCase item.content) w
      || item.tags.any (fun t => includes (P.toLowerCase t) w))

/-- The document of the specification's end-to-end scenario. -/
def introToGo : Document where
  title := js "Intro to Go"
  content := js "Go is a language"
  category := js "guides"
  tags := [js "go", js "programming"]
  url := js "/a"
  date := js "2024-01-01"

/-! ## Excerpts and highlighting -/

/-- The ellipsis `'...'`. -/
def ellipsis : JSString := js "..."

/-- The method `getExcerpt(content, query, contextLength)`. The source divides
`contextLength` by two as a number; the natural-number division used here is the
same value when `contextLength` is even, as is the default 150 that every call of
the source uses. -/
def getExcerpt (P : Platform) (content query : JSString) (contextLength : Nat) : JSString :=
  let queryLower := P.toLowerCase query
  let contentLower := P.toLowerCase content
  let index := indexOf contentLower queryLower
  let index :=
    if index = -1 then
      let firstWord := (split query).headD []
      indexOf contentLower (P.toLowerCase firstWord)
    else index
  if index = -1 then
    substring content 0 contextLength ++ ellipsis
  else
    let start : Int := max 0 (index - ((contextLength / 2 : Nat) : Int))
    let stop : Int :=
      min (content.length : Int) (index + query.length + ((contextLength / 2 : Nat) : Int))
    let excerpt := substring content start stop
    let excerpt := if start > 0 then ellipsis ++ excerpt else excerpt
    let excerpt := if stop < (content.length : Int) then excerpt ++ ellipsis else excerpt
    excerpt

/-- The default value of the parameter `contextLength` of `getExcerpt`. -/
def defaultContextLength : Nat := 150

/-- The characters of the class `[.*+?^${}()|[\]\\]` that `escapeRegex` escapes. -/
def isRegexSpecial (c : CodeUnit) : Bool :=
  c == 46 || c == 42 || c == 43 || c == 63 || c == 94 || c == 36 || c == 123 ||
  c == 125 || c == 40 || c == 41 || c == 124 || c == 91 || c == 93 || c == 92

/-- The method `escapeRegex(string)`: a backslash in front of every special character. -/
def escapeRegex (string : JSString) : JSString :=
  string.flatMap (fun c => if isRegexSpecial c then [92, c] else [c])

/-- The literal text that a pattern made of plain characters and of escaped
characters matches; this is the shape of every pattern `escapeRegex` returns. -/
def patternLiteral : JSString → JSString
  | [] => []
  | [c] => [c]
  | c :: d :: cs => if c = 92 then d :: patternLiteral cs else c :: patternLiteral (d :: cs)

/-- The opening highlight marker. -/
def openMark : JSString := js "<mark>"

/-- The closing highlight marker. -/
def closeMark : JSString := js "</mark>"

/-- Whether the literal `word` matches at the start of `s` under the `i` flag: code
unit by code unit, after `Canonicalize`. -/
def matchesAt (P : Platform) (word s : JSString) : Bool :=
  decide (word.length ≤ s.length) &&
    decide ((s.take word.length).map P.canonicalize = word.map P.canonicalize)

/-- The scan of a global replace by `'<mark>$1</mark>'` for a non-empty literal: at
each position, a match is wrapped and the scan resumes after it, otherwise one
code unit is copied. The fuel bounds the number of steps. -/
def wrapMatches (P : Platform) (word : JSString) : Nat → JSString → JSString
  | 0, s => s
  | _ + 1, [] => []
  | fuel + 1, c :: cs =>
    if matchesAt P word (c :: cs) then
      openMark ++ (c :: cs).take word.length ++ closeMark
        ++ wrapMatches P word fuel ((c :: cs).drop word.length)
    else c :: wrapMatches P word fuel cs

/-- The global replace for the empty literal, which matches once at every position
and once at the end. -/
def wrapEmpty : JSString → JSString
  | [] => openMark ++ closeMark
  | c :: cs => openMark ++ closeMark ++ c :: wrapEmpty cs

/-- The call `s.replace(new RegExp('(' + pattern + ')', 'gi'), '<mark>$1</mark>')`
for a pattern that stands for a literal. -/
def replaceWithMark (P : Platform) (pattern s : JSString) : JSString :=
  let word := patternLiteral pattern
  if word = [] then wrapEmpty s else wrapMatches P word s.length s

/-- The method `highlightText(text, query)`. -/
def highlightText (P : Platform) (text query : JSString) : JSString :=
  if text = [] ∨ query = [] then text
  else
    let words := (split query).filter (fun w => decide (w.length > 1))
    words.foldl (fun result word => replaceWithMark P (escapeRegex word) result) text

/-- The call `s.split('-')` and the like: the pieces between occurrences of one
code unit. -/
def splitOnUnit (sep : CodeUnit) : JSString → List JSString
  | [] => [[]]
  | c :: cs =>
    if c = sep then [] :: splitOnUnit sep cs
    else
      match splitOnUnit sep cs with
      | [] => [[c]]
      | t :: ts => (c :: t) :: ts

/-- The method `formatCategory(category)`. -/
def formatCategory (P : Platform) (category : JSString) : JSString :=
  List.intercalate (js " ")
    ((splitOnUnit 45 category).map (fun word => P.toUpperCase (word.take 1) ++ word.drop 1))

/-- The decimal text of a number, as a template literal interpolates it. -/
def numberText (n : Nat) : JSString := js (toString n)

/-! ## The page: engine state and the DOM elements it writes -/

/-- The state `performSearch` reads and writes. `searchCalls` is a ghost field: the
arguments of the calls of `search` made so far, oldest first. -/
structure Page where
  searchData : List Document
  inputValue : JSString
  resultsHTML : JSString
  resultsActive : Bool
  searchCalls : List JSString
deriving DecidableEq, Repr

/-- The method `showResults()`: adds the class `active` to the results panel. -/
def showResults (s : Page) : Page := { s with resultsActive := true }

/-- The method `hideResults()`: removes the class `active` from the results panel. -/
def hideResults (s : Page) : Page := { s with resultsActive := false }

/-- The method `showMessage(message)`. -/
def showMessage (message : JSString) (s : Page) : Page :=
  let html := js "\n      <div class=\"search-message\">\n        <p>" ++ message
    ++ js "</p>\n      </div>\n    "
  showResults { s with resultsHTML := html }

/-- The guidance message of `performSearch`. -/
def guidanceMessage : JSString := js "Please enter at least 2 characters"

/-- The markup `displayResults` appends for one result. -/
def resultItem (P : Platform) (result : ScoredDocument) (query : JSString) : JSString :=
  let excerpt := getExcerpt P result.content query defaultContextLength
  let highlightedTitle := highlightText P result.title query
  let highlightedExcerpt := highlightText P excerpt query
  js "\n        <div class=\"search-result-item\">\n          <h4><a href=\"" ++ result.url
    ++ js "\">" ++ highlightedTitle ++ js "</a></h4>\n          <p>" ++ highlightedExcerpt
    ++ js "</p>\n          <div class=\"search-result-meta\">\n            <span class=\"result-category\">"
    ++ formatCategory P result.category
    ++ js "</span>\n            <span class=\"separator\">•</span>\n            <span class=\"result-date\">"
    ++ result.date ++ js "</span>\n            "
    ++ (if result.tags.length > 0 then
          js "\n              <span class=\"separator\">•</span>\n              <span class=\"result-tags\">"
            ++ List.intercalate (js " ")
                ((result.tags.take 3).map (fun tag =>
                  js "<span class=\"mini-tag\">" ++ tag ++ js "</span>"))
            ++ js "</span>\n            "
        else [])
    ++ js "\n          </div>\n        </div>\n      "

/-- The method `displayResults(results, query)`. -/
def displayResults (P : Platform) (results : List ScoredDocument) (query : JSString)
    (s : Page) : Page :=
  if results.length = 0 then
    showMessage (js "No results found for \"" ++ query ++ js "\"") s
  else
    let html := js "<div class=\"search-results-header\">Found " ++ numberText results.length
      ++ js " result" ++ (if results.length ≠ 1 then js "s" else []) ++ js "</div>"
    let html := (results.take 10).foldl (fun html result => html ++ resultItem P result query) html
    let html :=
      if results.length > 10 then
        html ++ js "<div class=\"search-results-footer\">Showing top 10 of "
          ++ numberText results.length ++ js " results</div>"
      else html
    showResults { s with resultsHTML := html }

/-- The method `performSearch()`. The call of `search` is recorded in `searchCalls`. -/
def performSearch (P : Platform) (s : Page) : Page :=
  let query := P.toLowerCase (trim s.inputValue)
  if query.length = 0 then
    hideResults s
  else if query.length < 2 then
    showMessage guidanceMessage s
  else
    let results := search P s.searchData query
    displayResults P results query { s with searchCalls := s.searchCalls ++ [query] }

/-! ## Reading an output with highlight markers -/

/-- Reading of an output from the left: the code units outside the markers, each
with the flag "inside a `<mark>`...`</mark>` pair". The first argument counts the
code units of a recognized marker that remain to be skipped, the second the pairs
that are open. -/
def maskAux : Nat → Nat → JSString → List (CodeUnit × Bool)
  | _, _, [] => []
  | skip + 1, depth, _ :: cs => maskAux skip depth cs
  | 0, depth, c :: cs =>
    if openMark <+: c :: cs then maskAux (openMark.length - 1) (depth + 1) cs
    else if closeMark <+: c :: cs then maskAux (closeMark.length - 1) (depth - 1) cs
    else (c, decide (0 < depth)) :: maskAux 0 depth cs

/-- The text left when every `<mark>` and `</mark>` is deleted. -/
def stripMarks (s : JSString) : JSString := (maskAux 0 0 s).map Prod.fst

/-- For each code unit of `stripMarks s`, whether it lies inside a `<mark>`...`</mark>`
pair of `s`. -/
def highlighted (s : JSString) : List Bool := (maskAux 0 0 s).map Prod.snd

/-- A text contains no highlight marker. -/
def MarkFree (s : JSString) : Prop := ¬ openMark <:+: s ∧ ¬ closeMark <:+: s

instance (s : JSString) : Decidable (MarkFree s) := by
  unfold MarkFree; infer_instance

/-- One reading keeps the code units of another and highlights at least what the
other highlights. -/
def FlagLe (a b : CodeUnit × Bool) : Prop := a.1 = b.1 ∧ (a.2 = true → b.2 = true)

/-! ## Marked-up text as tokens -/

/-- A piece of an output of `highlightText`: a highlight marker (the opening one when
the flag is set) or a code unit of the text. -/
inductive Tok where
  | mark (opening : Bool)
  | unit (c : CodeUnit)
deriving DecidableEq, Repr

/-- The string a token stands for. -/
def Tok.text : Tok → JSString
  | Tok.mark true => openMark
  | Tok.mark false => closeMark
  | Tok.unit c => [c]

/-- The string a sequence of tokens stands for. -/
def render : List Tok → JSString
  | [] => []
  | t :: ts => t.text ++ render ts

/-- The code units of a sequence of tokens, markers left out. -/
def chars : List Tok → JSString
  | [] => []
  | Tok.mark _ :: ts => chars ts
  | Tok.unit c :: ts => c :: chars ts

/-- The code units at the head of a sequence of tokens, up to the first marker. -/
def leadChars : List Tok → JSString
  | Tok.unit c :: ts => c :: leadChars ts
  | _ => []

/-- One replace pass on tokens: a literal matches where the tokens ahead are code
units that match it, and the match is put between an opening and a closing marker.
The fuel bounds the number of steps. -/
def wrapTok (P : Platform) (word : JSString) : Nat → List Tok → List Tok
  | 0, T => T
  | _ + 1, [] => []
  | fuel + 1, t :: ts =>
    if matchesAt P word (leadChars (t :: ts)) then
      Tok.mark true :: (t :: ts).take word.length
        ++ Tok.mark false :: wrapTok P word fuel ((t :: ts).drop word.length)
    else t :: wrapTok P word fuel ts

/-- Reading of a sequence of tokens: its code units, each with the flag "inside a
pair of markers"; the first argument counts the pairs that are open. -/
def readTok : Nat → List Tok → List (CodeUnit × Bool)
  | _, [] => []
  | depth, Tok.mark true :: ts => readTok (depth + 1) ts
  | depth, Tok.mark false :: ts => readTok (depth - 1) ts
  | depth, Tok.unit c :: ts => (c, decide (0 < depth)) :: readTok depth ts

/-- The number of open pairs after a sequence of tokens. -/
def depthAfter : Nat → List Tok → Nat
  | depth, [] => depth
  | depth, Tok.mark true :: ts => depthAfter (depth + 1) ts
  | depth, Tok.mark false :: ts => depthAfter (depth - 1) ts
  | depth, Tok.unit _ :: ts => depthAfter depth ts

/-- Two strings agree, up to case, as far as both reach. -/
def agreeOnOverlap (P : Platform) (a b : JSString) : Bool :=
  decide ((a.take (min a.length b.length)).map P.canonicalize
    = (b.take (min a.length b.length)).map P.canonicalize)

/-- A match of the word can overlap an occurrence of the marker: it can start inside
the marker (or at its start), or start before the marker and reach into it. -/
def canTouch (P : Platform) (word marker : JSString) : Bool :=
  marker.tails.any (fun x => !x.isEmpty && agreeOnOverlap P word x)
    || word.tails.any (fun u => !u.isEmpty && agreeOnOverlap P u marker)

/-- No match of the word, up to case, can overlap a highlight marker. -/
def MarkerSafe (P : Platform) (word : JSString) : Prop :=
  canTouch P word openMark = false ∧ canTouch P word closeMark = false

instance (P : Platform) (word : JSString) : Decidable (MarkerSafe P word) := by
  unfold MarkerSafe; infer_instance

/-- The passes of `highlightText` on tokens, one for each word in turn. -/
def tokPasses (P : Platform) (words : List JSString) (T : List Tok) : List Tok :=
  words.foldl (fun T word => wrapTok P word T.length T) T

/-- A document that the query `go` does not match. -/
def rustNotes : Document where
  title := js "Rust notes"
  content := js "Ownership and borrowing"
  category := js "notes"
  tags := [js "rust"]
  url := js "/b"
  date := js "2024-02-02"

/-- The content of the specification's excerpt scenario: `AAAA`, 200 letters `x`,
`query term here`, `BBBB`. -/
def excerptScenarioContent : JSString :=
  js "AAAA" ++ List.replicate 200 120 ++ js "query term here" ++ js "BBBB"

/-! ## The debounced input listener -/

/-- A pending timer of the host: its identifier and the time it is due. Every timer
this listener creates runs the same callback, `() => this.performSearch()`. -/
structure Timer where
  id : Nat
  due : Nat
deriving DecidableEq, Repr

/-- The engine with its input listener: the clock in milliseconds, the identifier
the host gives to the next timer, the pending timers of the listener (in the order
of their creation), the variable `searchTimeout` of `attachEventListeners` (`none`
while it is undefined), the page, and a ghost log: the input values read by the
automatic searches run so far, oldest first. -/
structure Engine where
  now : Nat
  nextTimerId : Nat
  timers : List Timer
  searchTimeout : Option Nat
  page : Page
  autoSearches : List JSString
deriving DecidableEq, Repr

/-- The host function `clearTimeout(id)`: the pending timer with this identifier, if
there is one, is removed; an undefined identifier or one of a timer that has
already run changes nothing. -/
def clearTimeout (id : Option Nat) (s : Engine) : Engine :=
  match id with
  | none => s
  | some i => { s with timers := s.timers.filter (fun t => decide (t.id ≠ i)) }

/-- The host function `setTimeout(callback, delay)`: a new timer due `delay`
milliseconds from now; the result is its identifier. -/
def setTimeout (delay : Nat) (s : Engine) : Nat × Engine :=
  (s.nextTimerId,
    { s with
      timers := s.timers ++ [{ id := s.nextTimerId, due := s.now + delay }]
      nextTimerId := s.nextTimerId + 1 })

/-- The delay of the live search, in milliseconds. -/
def debounceDelay : Nat := 300

/-- The listener of the `input` event:
`clearTimeout(searchTimeout); searchTimeout = setTimeout(() => this.performSearch(), 300)`. -/
def onInput (s : Engine) : Engine :=
  let s := clearTimeout s.searchTimeout s
  let r := setTimeout debounceDelay s
  { r.2 with searchTimeout := some r.1 }

/-- The callback of a timer: `this.performSearch()`, logged as an automatic search
with the input value it reads. -/
def runTimer (P : Platform) (s : Engine) : Engine :=
  { s with
    page := performSearch P s.page
    autoSearches := s.autoSearches ++ [s.page.inputValue] }

/-- The passage of `gap` milliseconds: every timer that is due by then is removed
and its callback is run. The timers all have the same delay, so their order of
creation is the order in which they are due. -/
def advance (P : Platform) (gap : Nat) (s : Engine) : Engine :=
  let t := s.now + gap
  let due := s.timers.filter (fun tm => decide (tm.due ≤ t))
  let s := { s with now := t, timers := s.timers.filter (fun tm => decide (¬ tm.due ≤ t)) }
  due.foldl (fun s _ => runTimer P s) s

/-- What can happen to the engine: a keystroke `gap` milliseconds after the previous
event that leaves `value` in the input, `gap` milliseconds without an event, an
explicit submit (Enter key or button), a click outside the search widgets. -/
inductive Event where
  | key (gap : Nat) (value : JSString)
  | wait (gap : Nat)
  | submit
  | clickOutside
deriving DecidableEq, Repr

/-- The host stores the edited text in the input element before it dispatches the
`input` event. -/
def setInput (value : JSString) (s : Engine) : Engine :=
  { s with page := { s.page with inputValue := value } }

/-- The effect of one event. -/
def step (P : Platform) (e : Event) (s : Engine) : Engine :=
  match e with
  | Event.key gap value => onInput (setInput value (advance P gap s))
  | Event.wait gap => advance P gap s
  | Event.submit => { s with page := performSearch P s.page }
  | Event.clickOutside => { s with page := hideResults s.page }

/-- The effect of a sequence of events. -/
def run (P : Platform) (events : List Event) (s : Engine) : Engine :=
  events.foldl (fun s e => step P e s) s

/-- The engine once `attachEventListeners` has run: no timer, `searchTimeout`
undefined. -/
def initial (page : Page) : Engine where
  now := 0
  nextTimerId := 1
  timers := []
  searchTimeout := none
  page := page
  autoSearches := []

/-- The states the engine can be in. -/
inductive Reachable (P : Platform) : Engine → Prop where
  | init (page : Page) : Reachable P (initial page)
  | next (e : Event) (s : Engine) : Reachable P s → Reachable P (step P e s)

/-- The keystrokes of a burst as events. -/
def keyEvents (keys : List (Nat × JSString)) : List Event :=
  keys.map (fun k => Event.key k.1 k.2)

/-- The input value left by the last keystroke of a burst that starts with the value
`first` and goes on with `keys`. -/
def lastValue (first : JSString) (keys : List (Nat × JSString)) : JSString :=
  match keys.getLast? with
  | some k => k.2
  | none => first

/-- The timer slot holds at most the one timer that `searchTimeout` names, and that
timer is not yet due. -/
def SingleSlot (s : Engine) : Prop :=
  s.timers = [] ∨ ∃ tm, s.timers = [tm] ∧ s.searchTimeout = some tm.id ∧ s.now < tm.due

/-- One timer is pending, due a full delay from now and named by `searchTimeout`,
while the page is `base` with the input value `value` and the automatic searches
run so far are `log`. -/
def Armed (s : Engine) (base : Page) (value : JSString) (log : List JSString) : Prop :=
  (∃ i, s.timers = [{ id := i, due := s.now + debounceDelay }] ∧ s.searchTimeout = some i)
    ∧ s.page = { base with inputValue := value } ∧ s.autoSearches = log

/-- The page of the debounce scenario: the index of the end-to-end scenario, an
empty input and an empty, hidden results panel. -/
def scenarioPage : Page where
  searchData := [introToGo]
  inputValue := []
  resultsHTML := []
  resultsActive := false
  searchCalls := []

/-! ## Lemmas on the scoring loops -/

theorem foldl_bonus (p : JSString → Bool) (k : Nat) (l : List JSString) (init : Nat) :
    l.foldl (fun score tag => if p tag then score + k else score) init
      = init + k * (l.filter p).length := by
  induction l generalizing init with
  | nil => simp
  | cons t ts ih =>
    simp only [List.foldl_cons, ih, List.filter_cons]
    by_cases h : p t = true
    · simp [h]; ring
    · simp [h]

theorem foldl_words (g : JSString → Nat) (f : Nat → JSString → Nat)
    (hf : ∀ score w, f score w = if w.length < 2 then score else score + g w)
    (words : List JSString) (init : Nat) :
    words.foldl f init
      = init + ((words.filter (fun w => decide (2 ≤ w.length))).map g).sum := by
  induction words generalizing init with
  | nil => simp
  | cons w ws ih =>
    simp only [List.foldl_cons, ih, hf, List.filter_cons]
    by_cases h : w.length < 2
    · have h2 : ¬ 2 ≤ w.length := by omega
      simp [h, h2]
    · have h2 : 2 ≤ w.length := by omega
      simp [h, h2]; ring

theorem filter_map_lower_length (f : JSString → JSString) (p : JSString → Bool)
    (l : List JSString) :
    ((l.map f).filter p).length = (l.filter (fun t => p (f t))).length := by
  induction l with
  | nil => rfl
  | cons t ts ih =>
    simp only [List.map_cons, List.filter_cons]
    by_cases h : p (f t) = true
    · simp [h, ih]
    · simp [h, ih]

/-- The imperative accumulation of `scoreItem` is the sum of the bonuses. -/
theorem scoreItem_eq (P : Platform) (query : JSString) (words : List JSString)
    (item : Document) :
    scoreItem P query words item
      = points (decide (P.toLowerCase item.title = query)) 100
        + points (includes (P.toLowerCase item.title) query) 50
        + points (includes (P.toLowerCase item.category) query) 30
        + 40 * (item.tags.filter (fun t => includes (P.toLowerCase t) query)).length
        + ((words.filter (fun w => decide (2 ≤ w.length))).map (fun w =>
            points (includes (P.toLowerCase item.title) w) 10
            + points (includes (P.toLowerCase item.content) w) 5
            + 8 * (item.tags.filter (fun t => includes (P.toLowerCase t) w)).length)).sum := by
  unfold scoreItem
  simp only []
  rw [foldl_words (fun w =>
        points (includes (P.toLowerCase item.title) w) 10
        + points (includes (P.toLowerCase item.content) w) 5
        + 8 * (item.tags.filter (fun t => includes (P.toLowerCase t) w)).length)]
  · rw [foldl_bonus, filter_map_lower_length]
    simp only [points, decide_eq_true_eq, Nat.zero_add]
    split_ifs <;> rfl
  · intro score w
    by_cases h : w.length < 2
    · simp [h]
    · simp only [h, if_false]
      rw [foldl_bonus, filter_map_lower_length]
      simp only [points]
      split_ifs <;> ring

theorem scoreAll_eq (P : Platform) (searchData : List Document) (query : JSString) :
    scoreAll P searchData query
      = searchData.map (fun item => { toDocument := item, score := scoreOf P query item }) :=
  rfl

theorem scoreOf_eq_specScore (P : Platform) (query : JSString) (item : Document)
    (hq : P.toLowerCase query = query) : scoreOf P query item = specScore P query item := by
  unfold scoreOf specScore tokens
  rw [scoreItem_eq, hq]

/-! ## Lemmas on the sort -/

theorem insertOrdered_perm (x : ScoredDocument) (l : List ScoredDocument) :
    (insertOrdered x l).Perm (x :: l) := by
  induction l with
  | nil => exact List.Perm.refl _
  | cons y ys ih =>
    unfold insertOrdered
    split_ifs
    · exact List.Perm.refl _
    · exact (List.Perm.cons y ih).trans (List.Perm.swap x y ys)

theorem sortByScore_perm (l : List ScoredDocument) : (sortByScore l).Perm l := by
  induction l with
  | nil => exact List.Perm.refl _
  | cons x xs ih =>
    exact (insertOrdered_perm x (sortByScore xs)).trans (List.Perm.cons x ih)

theorem insertOrdered_sorted (x : ScoredDocument) (l : List ScoredDocument)
    (hl : l.Pairwise (fun a b => b.score ≤ a.score)) :
    (insertOrdered x l).Pairwise (fun a b => b.score ≤ a.score) := by
  induction l with
  | nil => simp [insertOrdered]
  | cons y ys ih =>
    have hy := List.pairwise_cons.mp hl
    unfold insertOrdered
    split_ifs with h
    · refine List.pairwise_cons.mpr ⟨?_, hl⟩
      have hxy : y.score ≤ x.score := by unfold compareScore at h; omega
      intro b hb
      rcases List.mem_cons.mp hb with rfl | hb
      · exact hxy
      · exact le_trans (hy.1 b hb) hxy
    · refine List.pairwise_cons.mpr ⟨?_, ih hy.2⟩
      intro b hb
      rcases List.mem_cons.mp ((insertOrdered_perm x ys).subset hb) with rfl | hb
      · unfold compareScore at h; omega
      · exact hy.1 b hb

theorem sortByScore_sorted (l : List ScoredDocument) :
    (sortByScore l).Pairwise (fun a b => b.score ≤ a.score) := by
  induction l with
  | nil => exact List.Pairwise.nil
  | cons x xs ih => exact insertOrdered_sorted x _ ih

theorem insertOrdered_filter (n : Nat) (x : ScoredDocument) (l : List ScoredDocument) :
    (insertOrdered x l).filter (fun a => decide (a.score = n))
      = (x :: l).filter (fun a => decide (a.score = n)) := by
  induction l with
  | nil => rfl
  | cons y ys ih =>
    unfold insertOrdered
    split_ifs with h
    · rfl
    · have hlt : x.score < y.score := by unfold compareScore at h; omega
      rw [List.filter_cons, ih]
      by_cases hy : y.score = n
      · have hx : ¬ x.score = n := by omega
        simp [List.filter_cons, hy, hx]
      · simp [List.filter_cons, hy]

theorem sortByScore_filter (n : Nat) (l : List ScoredDocument) :
    (sortByScore l).filter (fun a => decide (a.score = n))
      = l.filter (fun a => decide (a.score = n)) := by
  induction l with
  | nil => rfl
  | cons x xs ih =>
    show (insertOrdered x (sortByScore xs)).filter _ = _
    rw [insertOrdered_filter, List.filter_cons, List.filter_cons, ih]

/-! ## Lemmas on `split` -/

theorem splitAux_false_head (s : JSString) :
    ∃ h r, splitAux false s = h :: r ∧ h <+: s := by
  induction s with
  | nil => exact ⟨[], [], rfl, List.prefix_refl _⟩
  | cons c cs ih =>
    obtain ⟨h, r, he, hp⟩ := ih
    by_cases hc : isWhiteSpace c = true
    · exact ⟨[], splitAux true cs, by simp [splitAux, hc], List.nil_prefix⟩
    · refine ⟨c :: h, r, by simp [splitAux, hc, he], ?_⟩
      obtain ⟨t, ht⟩ := hp
      exact ⟨t, by simp [← ht]⟩

theorem splitAux_infix (s : JSString) (b : Bool) : ∀ t ∈ splitAux b s, t <:+: s := by
  induction s generalizing b with
  | nil =>
    intro t ht
    simp [splitAux] at ht
    subst ht
    exact List.infix_refl _
  | cons c cs ih =>
    intro t ht
    by_cases hc : isWhiteSpace c = true
    · have hsub : t = [] ∨ t ∈ splitAux true cs := by
        cases b <;> simp [splitAux, hc] at ht <;> tauto
      rcases hsub with rfl | hm
      · exact List.nil_infix
      · exact (ih true t hm).trans (List.suffix_cons c cs).isInfix
    · obtain ⟨h, r, he, hp⟩ := splitAux_false_head cs
      have hmem : t = c :: h ∨ t ∈ r := by
        simp [splitAux, hc, he] at ht
        exact ht
      rcases hmem with rfl | hm
      · obtain ⟨u, hu⟩ := hp
        exact (List.prefix_iff_eq_append.mpr (by simp [← hu]) : (c :: h) <+: c :: cs).isInfix
      · have : t ∈ splitAux false cs := by rw [he]; exact List.mem_cons_of_mem _ hm
        exact (ih false t this).trans (List.suffix_cons c cs).isInfix

theorem split_infix (s : JSString) : ∀ t ∈ split s, t <:+: s := splitAux_infix s false

theorem split_ne_nil (s : JSString) : split s ≠ [] := by
  obtain ⟨h, r, he, _⟩ := splitAux_false_head s
  simp [split, he]

/-! ## C1: the scoring table -/

/-- C1: for every index and every normalized query (one that lower-casing leaves
unchanged), the score `search` assigns to each document is exactly the sum of the
table: 100 if the lower-cased title equals the query, 50 if it contains it, 30 if
the lower-cased category contains it, 40 for each tag whose lower-cased form
contains it and, for each query token of length at least 2, 10 if the title
contains it, 5 if the content does and 8 for each tag that does. This holds for the
scores of the whole index and for the scores carried by the results. -/
theorem C1_score_is_table_sum (P : Platform) (searchData : List Document) (query : JSString)
    (hq : P.toLowerCase query = query) :
    (scoreAll P searchData query).map (fun r => r.score)
        = searchData.map (specScore P query)
      ∧ ∀ r ∈ search P searchData query, r.score = specScore P query r.toDocument := by
  have hall : ∀ r ∈ scoreAll P searchData query, r.score = specScore P query r.toDocument := by
    intro r hr
    rw [scoreAll_eq] at hr
    obtain ⟨item, _, rfl⟩ := List.mem_map.mp hr
    exact scoreOf_eq_specScore P query item hq
  refine ⟨?_, ?_⟩
  · rw [scoreAll_eq, List.map_map]
    exact List.map_congr_left (fun item _ => scoreOf_eq_specScore P query item hq)
  · intro r hr
    have h1 := (sortByScore_perm _).subset hr
    exact hall r (List.mem_filter.mp h1).1

/-- C1, on the specification's scenario: the query `go` is normalized, the scores
agree with the table, and the document `Intro to Go` scores 113. -/
theorem C1_score_is_table_sum_witness :
    samplePlatform.toLowerCase (js "go") = js "go"
      ∧ ((scoreAll samplePlatform [introToGo] (js "go")).map (fun r => r.score)
          = [introToGo].map (specScore samplePlatform (js "go")))
      ∧ (search samplePlatform [introToGo] (js "go")).map (fun r => r.score) = [113] :=
  ⟨by decide,
   (C1_score_is_table_sum samplePlatform [introToGo] (js "go") (by decide)).1,
   by decide⟩

/-! ## C2: ranking order and stability -/

/-- C2: for every index and every query, the results of `search` are in
non-increasing order of score, and for every score value the returned documents
with that score are, in order, the index documents that earn that (positive)
score: equal-score documents keep their relative index order. -/
theorem C2_sorted_and_stable (P : Platform) (searchData : List Document) (query : JSString) :
    (search P searchData query).Pairwise (fun a b => b.score ≤ a.score)
      ∧ ∀ n : Nat,
          ((search P searchData query).filter (fun r => decide (r.score = n))).map
              (fun r => r.toDocument)
            = searchData.filter (fun d => decide (scoreOf P query d = n) && decide (0 < n)) := by
  refine ⟨sortByScore_sorted _, ?_⟩
  intro n
  unfold search
  rw [sortByScore_filter, scoreAll_eq, List.filter_filter, List.filter_map, List.map_map]
  have hid : ((fun r : ScoredDocument => r.toDocument) ∘
      (fun item : Document => ({ toDocument := item, score := scoreOf P query item } :
        ScoredDocument))) = id := rfl
  rw [hid, List.map_id]
  apply List.filter_congr
  intro d _
  simp only [Function.comp]
  by_cases h : scoreOf P query d = n
  · subst h; simp
  · simp [h]

/-! ## C3: filtering -/

theorem filter_length_pos (p : JSString → Bool) (l : List JSString) :
    0 < (l.filter p).length ↔ ∃ x ∈ l, p x = true := by
  rw [List.length_pos]
  simp [List.filter_eq_nil_iff]

theorem points_pos (b : Bool) (k : Nat) (hk : 0 < k) : 0 < points b k ↔ b = true := by
  unfold points
  cases b <;> simp [hk]

theorem sum_map_pos (g : JSString → Nat) (l : List JSString) :
    0 < (l.map g).sum ↔ ∃ w ∈ l, 0 < g w := by
  induction l with
  | nil => simp
  | cons w ws ih =>
    simp only [List.map_cons, List.sum_cons, List.mem_cons, exists_eq_or_imp, ← ih]
    omega

theorem includes_of_eq (s q : JSString) (h : s = q) : includes s q = true := by
  subst h
  simp [includes]

/-- For a normalized query, a document earns a positive score exactly when it
matches the query. -/
theorem scoreOf_pos_iff (P : Platform) (query : JSString) (d : Document)
    (hq : P.toLowerCase query = query) :
    0 < scoreOf P query d ↔ matchesQuery P query d = true := by
  unfold scoreOf matchesQuery tokens
  rw [scoreItem_eq, hq]
  simp only [Bool.or_eq_true, List.any_eq_true, ← filter_length_pos]
  have h100 := points_pos (decide (P.toLowerCase d.title = query)) 100 (by norm_num)
  have h50 := points_pos (includes (P.toLowerCase d.title) query) 50 (by norm_num)
  have h30 := points_pos (includes (P.toLowerCase d.category) query) 30 (by norm_num)
  have hsum := sum_map_pos (fun w =>
      points (includes (P.toLowerCase d.title) w) 10
      + points (includes (P.toLowerCase d.content) w) 5
      + 8 * (d.tags.filter (fun t => includes (P.toLowerCase t) w)).length)
    ((split (query)).filter (fun w => decide (2 ≤ w.length)))
  have hterm : ∀ w, (0 < points (includes (P.toLowerCase d.title) w) 10
      + points (includes (P.toLowerCase d.content) w) 5
      + 8 * (d.tags.filter (fun t => includes (P.toLowerCase t) w)).length)
      ↔ ((includes (P.toLowerCase d.title) w = true ∨ includes (P.toLowerCase d.content) w = true)
          ∨ 0 < (d.tags.filter (fun t => includes (P.toLowerCase t) w)).length) := by
    intro w
    have h10 := points_pos (includes (P.toLowerCase d.title) w) 10 (by norm_num)
    have h5 := points_pos (includes (P.toLowerCase d.content) w) 5 (by norm_num)
    rw [← h10, ← h5]
    omega
  have hex : (∃ w ∈ (split (query)).filter (fun w => decide (2 ≤ w.length)),
      0 < points (includes (P.toLowerCase d.title) w) 10
      + points (includes (P.toLowerCase d.content) w) 5
      + 8 * (d.tags.filter (fun t => includes (P.toLowerCase t) w)).length)
      ↔ ∃ w ∈ (split (query)).filter (fun w => decide (2 ≤ w.length)),
        ((includes (P.toLowerCase d.title) w = true ∨ includes (P.toLowerCase d.content) w = true)
          ∨ 0 < (d.tags.filter (fun t => includes (P.toLowerCase t) w)).length) := by
    constructor
    · rintro ⟨w, hw, h⟩
      exact ⟨w, hw, (hterm w).mp h⟩
    · rintro ⟨w, hw, h⟩
      exact ⟨w, hw, (hterm w).mpr h⟩
  rw [← hex, ← hsum, ← h50, ← h30]
  have himp : P.toLowerCase d.title = query → 0 < points (includes (P.toLowerCase d.title) query) 50 := by
    intro h
    rw [h50]
    exact includes_of_eq _ _ h
  by_cases ht : P.toLowerCase d.title = query
  · have := himp ht
    omega
  · have h0 : points (decide (P.toLowerCase d.title = query)) 100 = 0 := by simp [points, ht]
    omega

/-- The documents `search` returns are, up to order, the index documents of positive
score. -/
theorem search_documents_perm (P : Platform) (searchData : List Document) (query : JSString) :
    ((search P searchData query).map (fun r => r.toDocument)).Perm
      (searchData.filter (fun d => decide (0 < scoreOf P query d))) := by
  have hp := (sortByScore_perm
    ((scoreAll P searchData query).filter (fun item => decide (item.score > 0)))).map
    (fun r => r.toDocument)
  refine hp.trans ?_
  rw [scoreAll_eq, List.filter_map, List.map_map]
  have hid : ((fun r : ScoredDocument => r.toDocument) ∘
      (fun item : Document => ({ toDocument := item, score := scoreOf P query item } :
        ScoredDocument))) = id := rfl
  rw [hid, List.map_id]
  exact List.Perm.refl _

/-- C3, as stated for every query, fails: for the query `GO`, neither `GO` nor its
token `GO` is contained in a lower-cased field of the document `Intro to Go`, yet
`search` returns the document, with the score 23 of the per-word rules, which use
the lower-cased query. -/
theorem C3_unnormalized_query_counterexample :
    matchesQuery samplePlatform (js "GO") introToGo = false
      ∧ (search samplePlatform [introToGo] (js "GO")).map (fun r => r.toDocument) = [introToGo]
      ∧ (search samplePlatform [introToGo] (js "GO")).map (fun r => r.score) = [23] := by
  decide

/-- C3, amended: for every index and every query, the documents `search` returns
are, up to order, exactly the index documents whose score is positive, each as
often as it occurs in the index and with all its fields unchanged, and every
returned entry carries the positive score of its document; and for every
normalized query (one that lower-casing leaves unchanged), the score of a document
is positive exactly when the query is contained in its lower-cased title, category
or a tag, or a query token of length at least 2 is contained in its lower-cased
title, content or a tag, so that the results are exactly the matching documents. -/
theorem C3_results_are_the_matches (P : Platform) (searchData : List Document)
    (query : JSString) :
    ((search P searchData query).map (fun r => r.toDocument)).Perm
        (searchData.filter (fun d => decide (0 < scoreOf P query d)))
      ∧ (∀ r ∈ search P searchData query,
          0 < r.score ∧ r.score = scoreOf P query r.toDocument)
      ∧ (P.toLowerCase query = query →
          (∀ d : Document, 0 < scoreOf P query d ↔ matchesQuery P query d = true)
            ∧ ((search P searchData query).map (fun r => r.toDocument)).Perm
                (searchData.filter (matchesQuery P query))) := by
  refine ⟨search_documents_perm P searchData query, ?_, ?_⟩
  · intro r hr
    have h1 := List.mem_filter.mp ((sortByScore_perm _).subset hr)
    have h2 := h1.1
    rw [scoreAll_eq] at h2
    obtain ⟨item, _, rfl⟩ := List.mem_map.mp h2
    exact ⟨by simpa using h1.2, rfl⟩
  · intro hq
    refine ⟨fun d => scoreOf_pos_iff P query d hq, ?_⟩
    refine (search_documents_perm P searchData query).trans ?_
    have hf : searchData.filter (fun d => decide (0 < scoreOf P query d))
        = searchData.filter (matchesQuery P query) := by
      apply List.filter_congr
      intro d _
      by_cases h : matchesQuery P query d = true
      · simp [h, (scoreOf_pos_iff P query d hq).mpr h]
      · have h0 : ¬ 0 < scoreOf P query d :=
          fun hc => h ((scoreOf_pos_iff P query d hq).mp hc)
        simp [h, h0]
    rw [hf]

/-- C3, amended, on the index `[Rust notes, Intro to Go]` and the normalized query
`go`: the results are the one matching document, unchanged, with its positive
score. -/
theorem C3_results_are_the_matches_witness :
    ((search samplePlatform [rustNotes, introToGo] (js "go")).map (fun r => r.toDocument)).Perm
        ([rustNotes, introToGo].filter (matchesQuery samplePlatform (js "go")))
      ∧ [rustNotes, introToGo].filter (matchesQuery samplePlatform (js "go")) = [introToGo]
      ∧ 0 < ({ toDocument := introToGo, score := 113 } : ScoredDocument).score :=
  have h := C3_results_are_the_matches samplePlatform [rustNotes, introToGo] (js "go")
  ⟨(h.2.2 (by decide)).2, by decide,
    (h.2.1 { toDocument := introToGo, score := 113 } (by decide)).1⟩

/-! ## C4: exact title match dominance -/

theorem points_le (b : Bool) (k : Nat) : points b k ≤ k := by
  unfold points
  split_ifs <;> omega

theorem sum_map_le (f g : JSString → Nat) (l : List JSString)
    (h : ∀ w ∈ l, f w ≤ g w) : (l.map f).sum ≤ (l.map g).sum := by
  induction l with
  | nil => simp
  | cons w ws ih =>
    simp only [List.map_cons, List.sum_cons]
    have h1 := h w (List.mem_cons_self _ _)
    have h2 := ih (fun v hv => h v (List.mem_cons_of_mem _ hv))
    omega

/-- C4: for every normalized query `q` and every two documents `A` and `B` with the
same content, category and tags, where the lower-cased title of `A` equals `q` and
the lower-cased title of `B` does not, the score of `A` is at least 100 and
strictly greater than the score of `B`. -/
theorem C4_exact_title_dominates (P : Platform) (q : JSString) (A B : Document)
    (hq : P.toLowerCase q = q)
    (hcontent : A.content = B.content) (hcategory : A.category = B.category)
    (htags : A.tags = B.tags)
    (hA : P.toLowerCase A.title = q) (hB : P.toLowerCase B.title ≠ q) :
    100 ≤ scoreOf P q A ∧ scoreOf P q B < scoreOf P q A := by
  unfold scoreOf
  rw [scoreItem_eq, scoreItem_eq, hq, hA, hcontent, hcategory, htags]
  have h100 : points (decide (q = q)) 100 = 100 := by simp [points]
  have h50 : points (includes q q) 50 = 50 := by simp [points, includes]
  have hB0 : points (decide (P.toLowerCase B.title = q)) 100 = 0 := by simp [points, hB]
  have hB50 := points_le (includes (P.toLowerCase B.title) q) 50
  have hsum : (((split q).filter (fun w => decide (2 ≤ w.length))).map (fun w =>
        points (includes (P.toLowerCase B.title) w) 10
        + points (includes (P.toLowerCase B.content) w) 5
        + 8 * (B.tags.filter (fun t => includes (P.toLowerCase t) w)).length)).sum
      ≤ (((split q).filter (fun w => decide (2 ≤ w.length))).map (fun w =>
        points (includes q w) 10
        + points (includes (P.toLowerCase B.content) w) 5
        + 8 * (B.tags.filter (fun t => includes (P.toLowerCase t) w)).length)).sum := by
    apply sum_map_le
    intro w hw
    have hin : includes q w = true := by
      simp only [includes, decide_eq_true_eq]
      exact split_infix q w (List.mem_filter.mp hw).1
    have h10 := points_le (includes (P.toLowerCase B.title) w) 10
    simp only [hin, points, if_true] at h10 ⊢
    omega
  omega

/-- C4, on two documents that differ only in the title: `Go` against `Intro to Go`,
for the query `go`. -/
theorem C4_exact_title_dominates_witness :
    100 ≤ scoreOf samplePlatform (js "go") { introToGo with title := js "Go" }
      ∧ scoreOf samplePlatform (js "go") introToGo
          < scoreOf samplePlatform (js "go") { introToGo with title := js "Go" } :=
  C4_exact_title_dominates samplePlatform (js "go") { introToGo with title := js "Go" }
    introToGo (by decide) rfl rfl rfl (by decide) (by decide)

/-! ## C5: letter case -/

/-- C5, as stated, fails for the query: `GO` and `go` differ only in letter case,
yet `search` scores the document `Intro to Go` 113 for `go` and 23 for `GO`, and a
document titled `Go` misses the exact-match bonus for the query `GO`. -/
theorem C5_query_case_counterexample :
    samplePlatform.toLowerCase (js "GO") = samplePlatform.toLowerCase (js "go")
      ∧ scoreOf samplePlatform (js "go") introToGo = 113
      ∧ scoreOf samplePlatform (js "GO") introToGo = 23
      ∧ samplePlatform.toLowerCase (js "Go") = samplePlatform.toLowerCase (js "GO")
      ∧ scoreOf samplePlatform (js "GO") { introToGo with title := js "Go" } < 100 := by
  decide

/-- C5, amended: for every query, the score is unchanged when the title, content,
category or any tag of the document is replaced by a string that differs from it
only in letter case; and for a lower-case query, a title that equals the query up
to case earns the exact-match bonus. -/
theorem C5_document_case_insensitive (P : Platform) (query : JSString) (d e : Document)
    (htitle : P.toLowerCase d.title = P.toLowerCase e.title)
    (hcontent : P.toLowerCase d.content = P.toLowerCase e.content)
    (hcategory : P.toLowerCase d.category = P.toLowerCase e.category)
    (htags : d.tags.map P.toLowerCase = e.tags.map P.toLowerCase) :
    scoreOf P query d = scoreOf P query e
      ∧ (P.toLowerCase query = query → P.toLowerCase d.title = P.toLowerCase query →
          100 ≤ scoreOf P query d) := by
  refine ⟨?_, ?_⟩
  · unfold scoreOf scoreItem
    simp only [htitle, hcontent, hcategory, htags]
  · intro hq ht
    unfold scoreOf
    rw [scoreItem_eq, ht, hq]
    have h100 : points (decide (query = query)) 100 = 100 := by simp [points]
    omega

/-- C5, amended, on two documents that differ only in letter case, for the query
`go`. -/
theorem C5_document_case_insensitive_witness :
    scoreOf samplePlatform (js "go") { introToGo with title := js "GO" }
        = scoreOf samplePlatform (js "go")
            { title := js "go", content := js "GO IS A LANGUAGE", category := js "Guides",
              tags := [js "Go", js "PROGRAMMING"], url := js "/a", date := js "2024-01-01" }
      ∧ 100 ≤ scoreOf samplePlatform (js "go") { introToGo with title := js "GO" } :=
  have h := C5_document_case_insensitive samplePlatform (js "go")
    { introToGo with title := js "GO" }
    { title := js "go", content := js "GO IS A LANGUAGE", category := js "Guides",
      tags := [js "Go", js "PROGRAMMING"], url := js "/a", date := js "2024-01-01" }
    (by decide) (by decide) (by decide) (by decide)
  ⟨h.1, h.2 (by decide) (by decide)⟩

/-! ## C6 and C7: `performSearch` -/

theorem displayResults_frame (P : Platform) (results : List ScoredDocument)
    (query : JSString) (s : Page) :
    (displayResults P results query s).searchData = s.searchData
      ∧ (displayResults P results query s).searchCalls = s.searchCalls
      ∧ (displayResults P results query s).inputValue = s.inputValue
      ∧ (displayResults P results query s).resultsActive = true := by
  unfold displayResults
  split_ifs <;> simp [showMessage, showResults]

/-- C6, as stated, fails: the trimmed input U+0130 has one character, but its
lower-cased form has two code units, so `performSearch` invokes the scorer (with
`i` followed by U+0307) and shows no guidance message. -/
theorem C6_one_character_counterexample :
    (trim [304]).length = 1
      ∧ (performSearch samplePlatform
          { searchData := [], inputValue := [304], resultsHTML := [],
            resultsActive := false, searchCalls := [] }).searchCalls = [[105, 775]]
      ∧ (performSearch samplePlatform
          { searchData := [], inputValue := [304], resultsHTML := [],
            resultsActive := false, searchCalls := [] }).resultsHTML
          ≠ (showMessage guidanceMessage
              { searchData := [], inputValue := [304], resultsHTML := [],
                resultsActive := false, searchCalls := [] }).resultsHTML := by
  decide

/-- C6, amended: for every raw input, with `query` the trimmed and lower-cased
input, `performSearch` invokes the scorer exactly when `query` has at least 2 code
units, and then with exactly `query`; when `query` has exactly 1 code unit it shows
the guidance message instead and does not invoke the scorer; and in every case the
loaded index is unchanged. -/
theorem C6_scorer_invoked_iff_two (P : Platform) (s : Page) :
    (2 ≤ (P.toLowerCase (trim s.inputValue)).length →
        (performSearch P s).searchCalls
          = s.searchCalls ++ [P.toLowerCase (trim s.inputValue)])
      ∧ ((P.toLowerCase (trim s.inputValue)).length < 2 →
          (performSearch P s).searchCalls = s.searchCalls)
      ∧ ((P.toLowerCase (trim s.inputValue)).length = 1 →
          performSearch P s = showMessage guidanceMessage s
            ∧ (performSearch P s).resultsHTML
                = js "\n      <div class=\"search-message\">\n        <p>"
                    ++ js "Please enter at least 2 characters"
                    ++ js "</p>\n      </div>\n    "
            ∧ (performSearch P s).resultsActive = true)
      ∧ (performSearch P s).searchData = s.searchData := by
  refine ⟨?_, ?_, ?_, ?_⟩
  · intro h
    have h0 : ¬ (P.toLowerCase (trim s.inputValue)).length = 0 := by omega
    have h1 : ¬ (P.toLowerCase (trim s.inputValue)).length < 2 := by omega
    simp only [performSearch, h0, h1, if_false]
    exact (displayResults_frame P _ _ _).2.1
  · intro h
    unfold performSearch
    simp only [h, if_true]
    split_ifs <;> simp [hideResults, showMessage, showResults]
  · intro h
    have h0 : ¬ (P.toLowerCase (trim s.inputValue)).length = 0 := by omega
    have h1 : (P.toLowerCase (trim s.inputValue)).length < 2 := by omega
    have he : performSearch P s = showMessage guidanceMessage s := by
      simp only [performSearch, h0, h1, if_false, if_true]
    rw [he]
    exact ⟨rfl, rfl, rfl⟩
  · unfold performSearch
    simp only []
    split_ifs
    · rfl
    · rfl
    · exact (displayResults_frame P _ _ _).1

/-- C6, amended, on the inputs ` Go ` (scorer invoked with `go`) and ` a ` (guidance
message, scorer not invoked). -/
theorem C6_scorer_invoked_iff_two_witness :
    (performSearch samplePlatform
        { searchData := [introToGo], inputValue := js " Go ", resultsHTML := [],
          resultsActive := false, searchCalls := [] }).searchCalls = [] ++ [js "go"]
      ∧ (performSearch samplePlatform
          { searchData := [introToGo], inputValue := js " a ", resultsHTML := [],
            resultsActive := false, searchCalls := [] }).searchCalls = [] :=
  ⟨(C6_scorer_invoked_iff_two samplePlatform
      { searchData := [introToGo], inputValue := js " Go ", resultsHTML := [],
        resultsActive := false, searchCalls := [] }).1 (by decide),
   (C6_scorer_invoked_iff_two samplePlatform
      { searchData := [introToGo], inputValue := js " a ", resultsHTML := [],
        resultsActive := false, searchCalls := [] }).2.1 (by decide)⟩

/-- C7, evaluated on a blank input while the panel holds earlier content:
`performSearch` removes the `active` state and does not invoke the scorer, but the
content of the results panel is left as it was, not cleared. -/
theorem C7_blank_input_hides_without_clearing :
    (performSearch samplePlatform
        { searchData := [introToGo], inputValue := js "   ", resultsHTML := js "<p>old</p>",
          resultsActive := true, searchCalls := [] })
      = { searchData := [introToGo], inputValue := js "   ", resultsHTML := js "<p>old</p>",
          resultsActive := false, searchCalls := [] } := by
  decide

/-! ## C8 and C9: excerpts -/

theorem window_infix (s : JSString) (l m k n : Nat) (h1 : l ≤ m) (h2 : m + n ≤ l + k) :
    (s.drop m).take n <:+: (s.drop l).take k := by
  rw [List.take_drop, List.take_drop]
  have hp : s.take (m + n) <+: s.take (l + k) := List.take_prefix_take_left s h2
  obtain ⟨r, hr⟩ := hp
  have hm : (s.take (m + n)).drop m = ((s.take (m + n)).drop l).drop (m - l) := by
    rw [List.drop_drop]
    congr 1
    omega
  rw [hm]
  refine (List.drop_suffix _ _).isInfix.trans ?_
  rw [← hr]
  by_cases hl : l ≤ (s.take (m + n)).length
  · rw [List.drop_append_of_le_length hl]
    exact (List.prefix_append _ _).isInfix
  · rw [List.drop_eq_nil_of_le (by omega)]
    exact List.nil_infix

theorem substring_infix (s : JSString) (a b c d : Int)
    (h1 : min (min (max c 0) s.length) (min (max d 0) s.length)
        ≤ min (min (max a 0) s.length) (min (max b 0) s.length))
    (h2 : max (min (max a 0) s.length) (min (max b 0) s.length)
        ≤ max (min (max c 0) s.length) (min (max d 0) s.length)) :
    substring s a b <:+: substring s c d := by
  unfold substring
  apply window_infix <;> omega

theorem substring_length_le (s : JSString) (a b : Int) :
    (substring s a b).length
      ≤ (max (min (max a 0) s.length) (min (max b 0) s.length)
          - min (min (max a 0) s.length) (min (max b 0) s.length)).toNat := by
  unfold substring
  simp only [List.length_take, List.length_drop]
  omega

theorem indexOf_of_firstIndex (s sub : JSString) (i : Nat) (h : firstIndex s sub = some i) :
    indexOf s sub = (i : Int) := by
  unfold indexOf
  rw [h]

/-- The excerpt when the lower-cased query is found at position `i`. -/
theorem getExcerpt_found (P : Platform) (content query : JSString) (contextLength i : Nat)
    (h : firstIndex (P.toLowerCase content) (P.toLowerCase query) = some i) :
    getExcerpt P content query contextLength
      = (if max (0 : Int) ((i : Int) - ((contextLength / 2 : Nat) : Int)) > 0
          then ellipsis else [])
        ++ substring content (max (0 : Int) ((i : Int) - ((contextLength / 2 : Nat) : Int)))
            (min (content.length : Int)
              ((i : Int) + query.length + ((contextLength / 2 : Nat) : Int)))
        ++ (if min (content.length : Int)
              ((i : Int) + query.length + ((contextLength / 2 : Nat) : Int))
              < (content.length : Int) then ellipsis else []) := by
  have hi : indexOf (P.toLowerCase content) (P.toLowerCase query) = (i : Int) :=
    indexOf_of_firstIndex _ _ _ h
  have hne : ¬ ((i : Int) = -1) := by omega
  unfold getExcerpt
  simp only [hi, hne, if_false]
  split_ifs <;> simp

/-- C8: for every content and every query whose lower-cased form first occurs in
the lower-cased content at index `i`, the excerpt for the default context length
150 contains the span of `content` from `i` to `i + |query|`, has at most
`150 + |query| + 6` code units, and begins with the ellipsis whenever `i > 75`. -/
theorem C8_excerpt_around_match (P : Platform) (content query : JSString) (i : Nat)
    (h : firstIndex (P.toLowerCase content) (P.toLowerCase query) = some i) :
    substring content i ((i : Int) + query.length)
        <:+: getExcerpt P content query defaultContextLength
      ∧ (getExcerpt P content query defaultContextLength).length ≤ 150 + query.length + 6
      ∧ (75 < i → ellipsis <+: getExcerpt P content query defaultContextLength) := by
  rw [getExcerpt_found P content query defaultContextLength i h]
  have hhalf : ((defaultContextLength / 2 : Nat) : Int) = 75 := by decide
  rw [hhalf]
  have hell : ellipsis.length = 3 := by decide
  refine ⟨?_, ?_, ?_⟩
  · refine List.IsInfix.trans ?_ (List.infix_append _ _ _)
    apply substring_infix <;> omega
  · have hlen := substring_length_le content (max (0 : Int) ((i : Int) - 75))
      (min (content.length : Int) ((i : Int) + query.length + 75))
    simp only [List.length_append]
    split_ifs <;> simp only [hell, List.length_nil] <;> omega
  · intro hi
    have hpos : max (0 : Int) ((i : Int) - 75) > 0 := by omega
    simp only [hpos, if_true, List.append_assoc]
    exact List.prefix_append _ _

set_option maxRecDepth 100000 in
/-- C8, on the specification's scenario: `query term` first occurs at index 204 of
the content, so the excerpt contains the match, is at most 166 code units long and
begins with the ellipsis; it is in fact 97 code units long. -/
theorem C8_excerpt_around_match_witness :
    firstIndex (samplePlatform.toLowerCase excerptScenarioContent)
        (samplePlatform.toLowerCase (js "query term")) = some 204
      ∧ js "query term"
          <:+: getExcerpt samplePlatform excerptScenarioContent (js "query term")
            defaultContextLength
      ∧ (getExcerpt samplePlatform excerptScenarioContent (js "query term")
          defaultContextLength).length ≤ 150 + (js "query term").length + 6
      ∧ ellipsis <+: getExcerpt samplePlatform excerptScenarioContent (js "query term")
          defaultContextLength
      ∧ (getExcerpt samplePlatform excerptScenarioContent (js "query term")
          defaultContextLength).length = 97 :=
  have h := C8_excerpt_around_match samplePlatform excerptScenarioContent (js "query term")
    204 (by decide)
  ⟨by decide, by
    have h1 := h.1
    have hs : substring excerptScenarioContent ((204 : Nat) : Int)
        (((204 : Nat) : Int) + (js "query term").length) = js "query term" := by decide
    rw [hs] at h1
    exact h1, h.2.1, h.2.2 (by decide), by decide⟩

/-- C9, evaluated on the fallback path: neither `zz` nor its first word occurs in
`abc`, the excerpt is the whole content (nothing is dropped from its end), and an
ellipsis is appended all the same. -/
theorem C9_fallback_appends_ellipsis_untruncated :
    indexOf (samplePlatform.toLowerCase (js "abc")) (samplePlatform.toLowerCase (js "zz")) = -1
      ∧ substring (js "abc") 0 defaultContextLength = js "abc"
      ∧ getExcerpt samplePlatform (js "abc") (js "zz") defaultContextLength = js "abc..." := by
  decide

/-! ## C10: highlighting -/

theorem openMark_eq : openMark = [60, 109, 97, 114, 107, 62] := by decide

theorem closeMark_eq : closeMark = [60, 47, 109, 97, 114, 107, 62] := by decide

theorem maskAux_skip (x : JSString) (d : Nat) (s : JSString) :
    maskAux x.length d (x ++ s) = maskAux 0 d s := by
  induction x with
  | nil => rfl
  | cons c cs ih =>
    cases hs : cs ++ s with
    | nil =>
      have : s = [] := (List.append_eq_nil.mp hs).2
      subst this
      simp [maskAux, hs]
    | cons e es =>
      simp only [List.length_cons, List.cons_append, maskAux]
      exact ih

theorem maskAux_open (d : Nat) (s : JSString) :
    maskAux 0 d (openMark ++ s) = maskAux 0 (d + 1) s := by
  have hp : openMark <+: 60 :: ([109, 97, 114, 107, 62] ++ s) := ⟨s, by rw [openMark_eq]; rfl⟩
  rw [openMark_eq]
  show maskAux 0 d (60 :: ([109, 97, 114, 107, 62] ++ s)) = _
  rw [maskAux, if_pos hp]
  exact maskAux_skip [109, 97, 114, 107, 62] (d + 1) s

theorem maskAux_close (d : Nat) (s : JSString) :
    maskAux 0 d (closeMark ++ s) = maskAux 0 (d - 1) s := by
  have hp : closeMark <+: 60 :: ([47, 109, 97, 114, 107, 62] ++ s) :=
    ⟨s, by rw [closeMark_eq]; rfl⟩
  have hn : ¬ openMark <+: 60 :: ([47, 109, 97, 114, 107, 62] ++ s) := by
    rintro ⟨r, hr⟩
    rw [openMark_eq] at hr
    simp at hr
  rw [closeMark_eq]
  show maskAux 0 d (60 :: ([47, 109, 97, 114, 107, 62] ++ s)) = _
  rw [maskAux, if_neg hn, if_pos hp]
  exact maskAux_skip [47, 109, 97, 114, 107, 62] (d - 1) s

/-- Both markers start with `<` and contain no other `<`. -/
theorem marker_shape (M : JSString) (hM : M = openMark ∨ M = closeMark) :
    ∃ mt, M = 60 :: mt ∧ 60 ∉ mt := by
  rcases hM with rfl | rfl
  · exact ⟨[109, 97, 114, 107, 62], openMark_eq, by decide⟩
  · exact ⟨[47, 109, 97, 114, 107, 62], closeMark_eq, by decide⟩

/-- In a marker-free piece followed by nothing or by a `<`, no marker starts inside
the piece. -/
theorem no_marker_start (M z rest : JSString) (hM : M = openMark ∨ M = closeMark)
    (hz : ¬ M <:+: z) (hrest : ∀ x ∈ rest.head?, x = 60)
    (z2 : JSString) (hz2 : z2 <:+ z) (hne : z2 ≠ []) : ¬ M <+: z2 ++ rest := by
  obtain ⟨mt, hmt, hnot⟩ := marker_shape M hM
  intro hp
  rcases List.prefix_or_prefix_of_prefix hp (List.prefix_append z2 rest) with h | h
  · exact hz (h.isInfix.trans hz2.isInfix)
  · obtain ⟨r2, hr2⟩ := h
    rw [← hr2] at hp
    have hr : r2 <+: rest := (List.prefix_append_right_inj z2).mp hp
    cases r2 with
    | nil =>
      rw [List.append_nil] at hr2
      rw [hr2] at hz2
      exact hz hz2.isInfix
    | cons x xs =>
      obtain ⟨t, ht⟩ := hr
      have hx : x = 60 := hrest x (by rw [← ht]; simp)
      cases z2 with
      | nil => exact hne rfl
      | cons y ys =>
        rw [hmt] at hr2
        simp only [List.cons_append, List.cons.injEq] at hr2
        apply hnot
        rw [← hr2.2, hx]
        simp

theorem maskAux_plain (z rest : JSString) (d : Nat)
    (hopen : ∀ z2, z2 <:+ z → z2 ≠ [] → ¬ openMark <+: z2 ++ rest)
    (hclose : ∀ z2, z2 <:+ z → z2 ≠ [] → ¬ closeMark <+: z2 ++ rest) :
    maskAux 0 d (z ++ rest) = z.map (fun c => (c, decide (0 < d))) ++ maskAux 0 d rest := by
  induction z with
  | nil => rfl
  | cons c cs ih =>
    have h1 := hopen (c :: cs) (List.suffix_refl _) (by simp)
    have h2 := hclose (c :: cs) (List.suffix_refl _) (by simp)
    simp only [List.cons_append] at h1 h2
    simp only [List.cons_append, List.map_cons]
    rw [maskAux, if_neg h1, if_neg h2]
    rw [ih (fun z2 hz hn => hopen z2 (hz.trans (List.suffix_cons c cs)) hn)
      (fun z2 hz hn => hclose z2 (hz.trans (List.suffix_cons c cs)) hn)]

theorem matchesAt_length (P : Platform) (w s : JSString) (h : matchesAt P w s = true) :
    w.length ≤ s.length := by
  unfold matchesAt at h
  simp only [Bool.and_eq_true, decide_eq_true_eq] at h
  exact h.1

theorem MarkFree.of_infix {s t : JSString} (h : MarkFree t) (hs : s <:+: t) : MarkFree s :=
  ⟨fun ho => h.1 (ho.trans hs), fun hc => h.2 (hc.trans hs)⟩

theorem matchesAt_nil (P : Platform) (w : JSString) (hw : w ≠ []) : matchesAt P w [] = false := by
  have hwl : 0 < w.length := List.length_pos.mpr hw
  unfold matchesAt
  simp only [List.length_nil, Bool.and_eq_false_imp, decide_eq_true_eq]
  intro h
  omega

theorem flags_head_part (a : JSString) (p : Nat) (hp : p < a.length) :
    ((a.map (fun c => (c, true))).map Prod.snd)[p]? = some true := by
  rw [List.getElem?_map, List.getElem?_map, List.getElem?_eq_getElem hp]
  rfl

theorem patternLiteral_escapeRegex (w : JSString) : patternLiteral (escapeRegex w) = w := by
  induction w with
  | nil => rfl
  | cons c cs ih =>
    have hcons : escapeRegex (c :: cs)
        = (if isRegexSpecial c then [92, c] else [c]) ++ escapeRegex cs := by
      simp [escapeRegex, List.flatMap_cons]
    rw [hcons]
    by_cases hc : isRegexSpecial c = true
    · simp only [hc, if_true, List.cons_append, List.nil_append, patternLiteral, ih]
    · have hc92 : c ≠ 92 := by
        rintro rfl
        exact hc (by decide)
      simp only [hc, List.cons_append, List.nil_append]
      cases he : escapeRegex cs with
      | nil =>
        rw [he] at ih
        simp only [patternLiteral] at ih ⊢
        rw [← ih]
      | cons d ds =>
        rw [he] at ih
        simp only [patternLiteral, hc92, if_false, ih]

/-! ### Comparing readings -/

theorem forall2_flagLe_refl (l : List (CodeUnit × Bool)) : List.Forall₂ FlagLe l l := by
  induction l with
  | nil => exact List.Forall₂.nil
  | cons a as ih => exact List.Forall₂.cons ⟨rfl, id⟩ ih

theorem forall2_flagLe_trans {l1 l2 l3 : List (CodeUnit × Bool)}
    (h1 : List.Forall₂ FlagLe l1 l2) (h2 : List.Forall₂ FlagLe l2 l3) :
    List.Forall₂ FlagLe l1 l3 := by
  induction h1 generalizing l3 with
  | nil => cases h2; exact List.Forall₂.nil
  | cons hab _ ih =>
    cases h2 with
    | cons hbc htl => exact List.Forall₂.cons ⟨hab.1.trans hbc.1, fun h => hbc.2 (hab.2 h)⟩ (ih htl)

theorem forall2_flagLe_append {l1 l2 m1 m2 : List (CodeUnit × Bool)}
    (h1 : List.Forall₂ FlagLe l1 l2) (h2 : List.Forall₂ FlagLe m1 m2) :
    List.Forall₂ FlagLe (l1 ++ m1) (l2 ++ m2) := by
  induction h1 with
  | nil => exact h2
  | cons hab _ ih => exact List.Forall₂.cons hab ih

theorem forall2_flagLe_map (z : JSString) (b : Bool) :
    List.Forall₂ FlagLe (z.map (fun c => (c, b))) (z.map (fun c => (c, true))) := by
  induction z with
  | nil => exact List.Forall₂.nil
  | cons c cs ih => exact List.Forall₂.cons ⟨rfl, fun _ => rfl⟩ ih

theorem forall2_flagLe_snd {l1 l2 : List (CodeUnit × Bool)} (h : List.Forall₂ FlagLe l1 l2)
    (p : Nat) (hp : (l1.map Prod.snd)[p]? = some true) : (l2.map Prod.snd)[p]? = some true := by
  induction h generalizing p with
  | nil => exact hp
  | cons hab _ ih =>
    cases p with
    | zero =>
      simp only [List.map_cons, List.getElem?_cons_zero, Option.some.injEq] at hp ⊢
      exact hab.2 hp
    | succ q =>
      simp only [List.map_cons, List.getElem?_cons_succ] at hp ⊢
      exact ih q hp

theorem wrapMatches_cons_false (P : Platform) (w : JSString) (fuel : Nat) (c : CodeUnit)
    (cs : JSString) (h : matchesAt P w (c :: cs) = false) :
    wrapMatches P w (fuel + 1) (c :: cs) = c :: wrapMatches P w fuel cs := by
  simp only [wrapMatches, h, Bool.false_eq_true, if_false]

theorem replaceWithMark_escaped (P : Platform) (w r : JSString) (hw : w ≠ []) :
    replaceWithMark P (escapeRegex w) r = wrapMatches P w r.length r := by
  simp only [replaceWithMark, patternLiteral_escapeRegex, hw, if_false]

theorem highlightText_words (P : Platform) (text query w : JSString) (rest : List JSString)
    (hw : (split query).filter (fun w => decide (w.length > 1)) = w :: rest) :
    (∀ v ∈ w :: rest, v ≠ [])
      ∧ (text ≠ [] → highlightText P text query
          = rest.foldl (fun result word => replaceWithMark P (escapeRegex word) result)
              (wrapMatches P w text.length text)) := by
  have hne : ∀ v ∈ w :: rest, v ≠ [] := by
    intro v hv
    rw [← hw] at hv
    have hlen : v.length > 1 := by simpa using (List.mem_filter.mp hv).2
    rintro rfl
    simp at hlen
  refine ⟨hne, ?_⟩
  intro ht
  unfold highlightText
  by_cases h : text = [] ∨ query = []
  · exfalso
    rcases h with rfl | rfl
    · exact ht rfl
    · simp [split, splitAux] at hw
  · rw [if_neg h]
    simp only [hw, List.foldl_cons, replaceWithMark_escaped P w text (hne w (List.mem_cons_self _ _))]

/-! ### Tokens -/

theorem render_append (A B : List Tok) : render (A ++ B) = render A ++ render B := by
  induction A with
  | nil => rfl
  | cons t ts ih =>
    rw [List.cons_append]
    simp only [render, ih, List.append_assoc]

theorem chars_append (A B : List Tok) : chars (A ++ B) = chars A ++ chars B := by
  induction A with
  | nil => rfl
  | cons t ts ih =>
    cases t with
    | mark b =>
      rw [List.cons_append]
      simpa only [chars] using ih
    | unit c =>
      rw [List.cons_append]
      simp only [chars, ih, List.cons_append]

theorem render_units (cs : JSString) : render (cs.map Tok.unit) = cs := by
  induction cs with
  | nil => rfl
  | cons c cs ih => simp only [List.map_cons, render, Tok.text, ih, List.singleton_append]

theorem chars_units (cs : JSString) : chars (cs.map Tok.unit) = cs := by
  induction cs with
  | nil => rfl
  | cons c cs ih => simp only [List.map_cons, chars, ih]

theorem leadChars_units_append (cs : JSString) (T : List Tok) :
    leadChars (cs.map Tok.unit ++ T) = cs ++ leadChars T := by
  induction cs with
  | nil => rfl
  | cons c cs ih =>
    rw [List.map_cons, List.cons_append]
    simp only [leadChars, ih, List.cons_append]

theorem leadChars_length_le (T : List Tok) : (leadChars T).length ≤ T.length := by
  induction T with
  | nil => simp [leadChars]
  | cons t ts ih =>
    cases t with
    | mark b => simp [leadChars]
    | unit c => simp only [leadChars, List.length_cons]; omega

/-- A sequence of tokens is its leading code units followed by nothing or by a
marker and more tokens. -/
theorem lead_split (T : List Tok) :
    T = (leadChars T).map Tok.unit ∨
      ∃ b ts, T = (leadChars T).map Tok.unit ++ Tok.mark b :: ts := by
  induction T with
  | nil => exact Or.inl rfl
  | cons t ts ih =>
    cases t with
    | mark b => exact Or.inr ⟨b, ts, rfl⟩
    | unit c =>
      rcases ih with h | ⟨b, us, h⟩
      · left
        simp only [leadChars, List.map_cons]
        rw [← h]
      · right
        refine ⟨b, us, ?_⟩
        simp only [leadChars, List.map_cons, List.cons_append]
        rw [← h]

theorem leadChars_prefix_chars (T : List Tok) : leadChars T <+: chars T := by
  rcases lead_split T with h | ⟨b, ts, h⟩
  · have := congrArg chars h
    rw [chars_units] at this
    rw [this]
  · have := congrArg chars h
    rw [chars_append, chars_units] at this
    rw [this]
    exact List.prefix_append _ _

theorem take_of_le_lead (T : List Tok) (n : Nat) (h : n ≤ (leadChars T).length) :
    T.take n = ((leadChars T).take n).map Tok.unit := by
  rcases lead_split T with hs | ⟨b, ts, hs⟩
  · conv_lhs => rw [hs]
    rw [List.map_take]
  · conv_lhs => rw [hs]
    rw [List.take_append_of_le_length (by simpa using h), List.map_take]

theorem leadChars_append (A Y : List Tok) :
    leadChars (A ++ Y) = leadChars A ∨ A = (leadChars A).map Tok.unit := by
  rcases lead_split A with hs | ⟨b, ts, hs⟩
  · exact Or.inr hs
  · left
    conv_lhs => rw [hs]
    rw [List.append_assoc, leadChars_units_append]
    simp [leadChars]

/-! ### Reading tokens -/

theorem readTok_fst (d : Nat) (T : List Tok) : (readTok d T).map Prod.fst = chars T := by
  induction T generalizing d with
  | nil => rfl
  | cons t ts ih =>
    cases t with
    | mark b => cases b <;> simp only [readTok, chars, ih]
    | unit c => simp only [readTok, chars, List.map_cons, ih]

theorem readTok_length (d : Nat) (T : List Tok) : (readTok d T).length = (chars T).length := by
  rw [← readTok_fst d T, List.length_map]

theorem readTok_append (d : Nat) (A B : List Tok) :
    readTok d (A ++ B) = readTok d A ++ readTok (depthAfter d A) B := by
  induction A generalizing d with
  | nil => rfl
  | cons t ts ih =>
    cases t with
    | mark b =>
      rw [List.cons_append]
      cases b <;> simp only [readTok, depthAfter, ih]
    | unit c =>
      rw [List.cons_append]
      simp only [readTok, depthAfter, ih, List.cons_append]

theorem readTok_units (d : Nat) (cs : JSString) (T : List Tok) :
    readTok d (cs.map Tok.unit ++ T)
      = cs.map (fun c => (c, decide (0 < d))) ++ readTok d T := by
  induction cs with
  | nil => rfl
  | cons c cs ih =>
    rw [List.map_cons, List.cons_append]
    simp only [readTok, ih, List.map_cons, List.cons_append]

/-- The string reader and the token reader agree on the rendering of tokens whose
code units contain no marker. -/
theorem maskAux_render (T : List Tok) (d : Nat) (hfree : MarkFree (chars T)) :
    maskAux 0 d (render T) = readTok d T := by
  induction T generalizing d with
  | nil => rfl
  | cons t ts ih =>
    cases t with
    | mark b =>
      cases b with
      | true =>
        show maskAux 0 d (openMark ++ render ts) = _
        rw [maskAux_open]
        exact ih (d + 1) hfree
      | false =>
        show maskAux 0 d (closeMark ++ render ts) = _
        rw [maskAux_close]
        exact ih (d - 1) hfree
    | unit c =>
      have hts : MarkFree (chars ts) := hfree.of_infix (List.suffix_cons c _).isInfix
      have hsplit : ∃ rest, render (Tok.unit c :: ts) = leadChars (Tok.unit c :: ts) ++ rest
          ∧ ∀ x ∈ rest.head?, x = 60 := by
        rcases lead_split (Tok.unit c :: ts) with hs | ⟨b, us, hs⟩
        · refine ⟨[], ?_, by simp⟩
          conv_lhs => rw [hs]
          rw [render_units, List.append_nil]
        · refine ⟨render (Tok.mark b :: us), ?_, ?_⟩
          · conv_lhs => rw [hs]
            rw [render_append, render_units]
          · intro x hx
            cases b
            · simp only [render, Tok.text, closeMark_eq] at hx
              simpa using hx.symm
            · simp only [render, Tok.text, openMark_eq] at hx
              simpa using hx.symm
      obtain ⟨rest, hr, hhead⟩ := hsplit
      have hlead : leadChars (Tok.unit c :: ts) <:+: chars (Tok.unit c :: ts) :=
        (leadChars_prefix_chars _).isInfix
      have hne : leadChars (Tok.unit c :: ts) ≠ [] := by simp [leadChars]
      have ho : ¬ openMark <+: c :: render ts := by
        have := no_marker_start openMark _ rest (Or.inl rfl)
          (fun h => hfree.1 (h.trans hlead)) hhead _ (List.suffix_refl _) hne
        rw [← hr] at this
        exact this
      have hc : ¬ closeMark <+: c :: render ts := by
        have := no_marker_start closeMark _ rest (Or.inr rfl)
          (fun h => hfree.2 (h.trans hlead)) hhead _ (List.suffix_refl _) hne
        rw [← hr] at this
        exact this
      show maskAux 0 d (c :: render ts) = _
      rw [maskAux, if_neg ho, if_neg hc, ih d hts]
      rfl

/-! ### Matches next to markers -/

theorem matchesAt_iff (P : Platform) (w s : JSString) :
    matchesAt P w s = true
      ↔ w.length ≤ s.length ∧ (s.take w.length).map P.canonicalize = w.map P.canonicalize := by
  unfold matchesAt
  simp only [Bool.and_eq_true, decide_eq_true_eq]

theorem matchesAt_append (P : Platform) (w a b : JSString) (h : matchesAt P w a = true) :
    matchesAt P w (a ++ b) = true := by
  rw [matchesAt_iff] at h ⊢
  refine ⟨by rw [List.length_append]; omega, ?_⟩
  rw [List.take_append_of_le_length h.1]
  exact h.2

theorem matchesAt_of_append (P : Platform) (w a b : JSString)
    (h : matchesAt P w (a ++ b) = true) (hl : w.length ≤ a.length) :
    matchesAt P w a = true := by
  rw [matchesAt_iff] at h ⊢
  refine ⟨hl, ?_⟩
  rw [← List.take_append_of_le_length hl]
  exact h.2

theorem matchesAt_of_prefix (P : Platform) (w a b : JSString) (h : matchesAt P w a = true)
    (hp : a <+: b) : matchesAt P w b = true := by
  obtain ⟨t, rfl⟩ := hp
  exact matchesAt_append P w a t h

/-- A match that starts where `x` starts agrees with `x` as far as both reach. -/
theorem agree_of_match_start (P : Platform) (w x s : JSString)
    (h : matchesAt P w (x ++ s) = true) : agreeOnOverlap P w x = true := by
  rw [matchesAt_iff] at h
  unfold agreeOnOverlap
  simp only [decide_eq_true_eq]
  have h2 := congrArg (List.take (min w.length x.length)) h.2
  rw [← List.map_take, ← List.map_take, List.take_take] at h2
  have hm : min (min w.length x.length) w.length = min w.length x.length := by omega
  rw [hm, List.take_append_of_le_length (by omega)] at h2
  exact h2.symm

/-- A match that starts before `m` and reaches into it agrees with `m`, from where
`m` starts, as far as both reach. -/
theorem agree_of_match_reach (P : Platform) (w a m s : JSString)
    (h : matchesAt P w (a ++ (m ++ s)) = true) :
    agreeOnOverlap P (w.drop a.length) m = true := by
  rw [matchesAt_iff] at h
  unfold agreeOnOverlap
  simp only [decide_eq_true_eq]
  have h2 := congrArg (List.drop a.length) h.2
  rw [← List.map_drop, ← List.map_drop, List.drop_take, List.drop_left] at h2
  have h3 := congrArg (List.take (min (w.drop a.length).length m.length)) h2
  rw [← List.map_take, ← List.map_take, List.take_take] at h3
  have hlen : (w.drop a.length).length = w.length - a.length := List.length_drop _ _
  have hm : min (min (w.drop a.length).length m.length) (w.length - a.length)
      = min (w.drop a.length).length m.length := by omega
  rw [hm, List.take_append_of_le_length (by omega)] at h3
  exact h3.symm

theorem canTouch_false (P : Platform) (w m : JSString) (h : canTouch P w m = false) :
    (∀ x, x <:+ m → x ≠ [] → agreeOnOverlap P w x = false)
      ∧ (∀ u, u <:+ w → u ≠ [] → agreeOnOverlap P u m = false) := by
  unfold canTouch at h
  rw [Bool.or_eq_false_iff, List.any_eq_false, List.any_eq_false] at h
  constructor
  · intro x hx hne
    have := h.1 x ((List.mem_tails x m).mpr hx)
    cases x with
    | nil => exact absurd rfl hne
    | cons y ys => simpa using this
  · intro u hu hne
    have := h.2 u ((List.mem_tails u w).mpr hu)
    cases u with
    | nil => exact absurd rfl hne
    | cons y ys => simpa using this

theorem MarkerSafe.marker (P : Platform) (w : JSString) (h : MarkerSafe P w) (b : Bool) :
    canTouch P w (Tok.mark b).text = false := by
  cases b
  · exact h.2
  · exact h.1

/-- No match of a safe word starts inside a marker. -/
theorem safe_no_start (P : Platform) (w : JSString) (h : MarkerSafe P w) (b : Bool)
    (x s : JSString) (hx : x <:+ (Tok.mark b).text) (hne : x ≠ []) :
    matchesAt P w (x ++ s) = false := by
  by_contra hc
  have hm : matchesAt P w (x ++ s) = true := by simpa using hc
  have h1 := agree_of_match_start P w x s hm
  rw [(canTouch_false P w _ (h.marker P w b)).1 x hx hne] at h1
  exact absurd h1 (by simp)

/-- No match of a safe word starts before a marker and reaches into it. -/
theorem safe_no_reach (P : Platform) (w : JSString) (h : MarkerSafe P w) (b : Bool)
    (a s : JSString) (hl : a.length < w.length) :
    matchesAt P w (a ++ ((Tok.mark b).text ++ s)) = false := by
  by_contra hc
  have hm : matchesAt P w (a ++ ((Tok.mark b).text ++ s)) = true := by simpa using hc
  have h1 := agree_of_match_reach P w a _ s hm
  have hne : w.drop a.length ≠ [] := by
    intro h0
    have := congrArg List.length h0
    rw [List.length_drop] at this
    simp at this
    omega
  rw [(canTouch_false P w _ (h.marker P w b)).2 _ (List.drop_suffix _ _) hne] at h1
  exact absurd h1 (by simp)

theorem wrapMatches_skip_seq (P : Platform) (w : JSString) (x s : JSString) (fuel : Nat)
    (hx : ∀ x2, x2 <:+ x → x2 ≠ [] → matchesAt P w (x2 ++ s) = false) :
    wrapMatches P w (fuel + x.length) (x ++ s) = x ++ wrapMatches P w fuel s := by
  induction x with
  | nil => rfl
  | cons y ys ih =>
    have hy : matchesAt P w (y :: (ys ++ s)) = false :=
      hx (y :: ys) (List.suffix_refl _) (by simp)
    have hstep : fuel + (y :: ys).length = (fuel + ys.length) + 1 := by
      simp only [List.length_cons]; omega
    rw [hstep, List.cons_append, wrapMatches_cons_false P w _ y _ hy,
      ih (fun z hz hn => hx z (hz.trans (List.suffix_cons y ys)) hn)]
    rfl

theorem wrapMatches_cons_true (P : Platform) (w : JSString) (fuel : Nat) (c : CodeUnit)
    (cs : JSString) (h : matchesAt P w (c :: cs) = true) :
    wrapMatches P w (fuel + 1) (c :: cs)
      = openMark ++ (c :: cs).take w.length ++ closeMark
        ++ wrapMatches P w fuel ((c :: cs).drop w.length) := by
  simp only [wrapMatches, h, if_true]

theorem marker_text_length_pos (b : Bool) : 0 < (Tok.mark b).text.length := by
  cases b <;> decide

/-! ### A replace pass on the string is the pass on its tokens -/

theorem render_take_drop (T : List Tok) (n : Nat) (h : n ≤ (leadChars T).length) :
    render T = (leadChars T).take n ++ render (T.drop n) := by
  conv_lhs => rw [← List.take_append_drop n T]
  rw [render_append, take_of_le_lead T n h, render_units]

theorem matchesAt_render (P : Platform) (v : JSString) (T : List Tok)
    (hH : MarkerSafe P v ∨ ∀ t ∈ T, ∃ c, t = Tok.unit c) :
    matchesAt P v (render T) = matchesAt P v (leadChars T) := by
  rcases lead_split T with hs | ⟨b, us, hs⟩
  · have : render T = leadChars T := by
      conv_lhs => rw [hs]
      rw [render_units]
    rw [this]
  · have hr : render T = leadChars T ++ ((Tok.mark b).text ++ render us) := by
      conv_lhs => rw [hs]
      rw [render_append, render_units]
      rfl
    have hsafe : MarkerSafe P v := by
      rcases hH with h | h
      · exact h
      · exfalso
        obtain ⟨c, hc⟩ := h (Tok.mark b) (by rw [hs]; simp)
        cases hc
    by_cases hm : matchesAt P v (leadChars T) = true
    · rw [hm, hr]
      exact matchesAt_append P v _ _ hm
    · have hmf : matchesAt P v (leadChars T) = false := by simpa using hm
      rw [hmf, hr]
      by_cases hl : v.length ≤ (leadChars T).length
      · by_contra hc
        have hc2 : matchesAt P v (leadChars T ++ ((Tok.mark b).text ++ render us)) = true := by
          simpa using hc
        exact hm (matchesAt_of_append P v _ _ hc2 hl)
      · exact safe_no_reach P v hsafe b _ _ (by omega)

theorem wrapMatches_nil (P : Platform) (v : JSString) (fuel : Nat) :
    wrapMatches P v fuel [] = [] := by
  cases fuel <;> rfl

theorem wrapTok_nil (P : Platform) (v : JSString) (fT : Nat) : wrapTok P v fT [] = [] := by
  cases fT <;> rfl

/-- With enough fuel on both sides, the replace pass on the rendering of tokens is
the rendering of the pass on the tokens, for a word that cannot touch a marker or
for tokens without markers. -/
theorem wrapMatches_render (P : Platform) (v : JSString) (hv : v ≠ []) :
    ∀ (fT fuel : Nat) (T : List Tok), (render T).length ≤ fuel → T.length ≤ fT →
      (MarkerSafe P v ∨ ∀ t ∈ T, ∃ c, t = Tok.unit c) →
      wrapMatches P v fuel (render T) = render (wrapTok P v fT T) := by
  have hvl : 0 < v.length := List.length_pos.mpr hv
  intro fT
  induction fT with
  | zero =>
    intro fuel T _ hT _
    have : T = [] := List.length_eq_zero.mp (by omega)
    subst this
    exact wrapMatches_nil P v fuel
  | succ fT ih =>
    intro fuel T hfuel hT hH
    cases T with
    | nil => exact wrapMatches_nil P v fuel
    | cons t ts =>
      have hHts : MarkerSafe P v ∨ ∀ x ∈ ts, ∃ c, x = Tok.unit c := by
        rcases hH with h | h
        · exact Or.inl h
        · exact Or.inr (fun x hx => h x (List.mem_cons_of_mem _ hx))
      have htsl : ts.length ≤ fT := by
        simp only [List.length_cons] at hT
        omega
      cases t with
      | mark b =>
        have hsafe : MarkerSafe P v := by
          rcases hH with h | h
          · exact h
          · exfalso
            obtain ⟨c, hc⟩ := h (Tok.mark b) (List.mem_cons_self _ _)
            cases hc
        have hpos := marker_text_length_pos b
        have hlen : (Tok.mark b).text.length + (render ts).length ≤ fuel := by
          have : render (Tok.mark b :: ts) = (Tok.mark b).text ++ render ts := rfl
          rw [this, List.length_append] at hfuel
          exact hfuel
        have hf : fuel = (fuel - (Tok.mark b).text.length) + (Tok.mark b).text.length := by
          omega
        have hno : matchesAt P v (leadChars (Tok.mark b :: ts)) = false :=
          matchesAt_nil P v hv
        show wrapMatches P v fuel ((Tok.mark b).text ++ render ts) = _
        rw [hf, wrapMatches_skip_seq P v _ _ _
          (fun x2 hx hne => safe_no_start P v hsafe b x2 _ hx hne),
          ih _ ts (by omega) htsl hHts]
        simp only [wrapTok, hno, Bool.false_eq_true, if_false, render]
      | unit c =>
        have hmr := matchesAt_render P v (Tok.unit c :: ts) hH
        have hrl : 1 + (render ts).length ≤ fuel := by
          have : render (Tok.unit c :: ts) = c :: render ts := rfl
          rw [this, List.length_cons] at hfuel
          omega
        obtain ⟨f, rfl⟩ : ∃ f, fuel = f + 1 := ⟨fuel - 1, by omega⟩
        by_cases hm : matchesAt P v (leadChars (Tok.unit c :: ts)) = true
        · have hL := matchesAt_length P v _ hm
          have hsplit := render_take_drop (Tok.unit c :: ts) v.length hL
          have htake : (render (Tok.unit c :: ts)).take v.length
              = (leadChars (Tok.unit c :: ts)).take v.length := by
            rw [hsplit]
            exact List.take_left' (by rw [List.length_take]; omega)
          have hdrop : (render (Tok.unit c :: ts)).drop v.length
              = render ((Tok.unit c :: ts).drop v.length) := by
            conv_lhs => rw [hsplit]
            exact List.drop_left' (by rw [List.length_take]; omega)
          have hdl : (render ((Tok.unit c :: ts).drop v.length)).length ≤ f := by
            have := congrArg List.length hsplit
            rw [List.length_append, List.length_take] at this
            omega
          have hdT : ((Tok.unit c :: ts).drop v.length).length ≤ fT := by
            rw [List.length_drop]
            omega
          have hHd : MarkerSafe P v ∨ ∀ x ∈ (Tok.unit c :: ts).drop v.length,
              ∃ c, x = Tok.unit c := by
            rcases hH with h | h
            · exact Or.inl h
            · exact Or.inr (fun x hx => h x (List.mem_of_mem_drop hx))
          have hstr : matchesAt P v (c :: render ts) = true := by
            have : render (Tok.unit c :: ts) = c :: render ts := rfl
            rw [← this, hmr]
            exact hm
          show wrapMatches P v (f + 1) (c :: render ts) = _
          rw [wrapMatches_cons_true P v f c _ hstr]
          have hr : c :: render ts = render (Tok.unit c :: ts) := rfl
          rw [hr, htake, hdrop, ih f _ hdl hdT hHd]
          simp only [wrapTok, hm, if_true]
          rw [take_of_le_lead _ _ hL]
          show _ = openMark ++ render (_ ++ Tok.mark false :: _)
          rw [render_append, render_units]
          show _ = openMark ++ (_ ++ (closeMark ++ render _))
          simp only [List.append_assoc]
        · have hmf : matchesAt P v (leadChars (Tok.unit c :: ts)) = false := by simpa using hm
          have hstr : matchesAt P v (c :: render ts) = false := by
            have : render (Tok.unit c :: ts) = c :: render ts := rfl
            rw [← this, hmr]
            exact hmf
          show wrapMatches P v (f + 1) (c :: render ts) = _
          rw [wrapMatches_cons_false P v f c _ hstr, ih f ts (by omega) htsl hHts]
          simp only [wrapTok, hmf, Bool.false_eq_true, if_false, render, Tok.text,
            List.singleton_append]

/-! ### The pass on tokens -/

theorem wrapTok_cons_true (P : Platform) (v : JSString) (fT : Nat) (T : List Tok)
    (hT : T ≠ []) (h : matchesAt P v (leadChars T) = true) :
    wrapTok P v (fT + 1) T
      = Tok.mark true :: ((leadChars T).take v.length).map Tok.unit
        ++ Tok.mark false :: wrapTok P v fT (T.drop v.length) := by
  cases T with
  | nil => exact absurd rfl hT
  | cons t ts =>
    simp only [wrapTok, h, if_true]
    rw [take_of_le_lead _ _ (matchesAt_length P v _ h)]

theorem wrapTok_cons_false (P : Platform) (v : JSString) (fT : Nat) (t : Tok) (ts : List Tok)
    (h : matchesAt P v (leadChars (t :: ts)) = false) :
    wrapTok P v (fT + 1) (t :: ts) = t :: wrapTok P v fT ts := by
  simp only [wrapTok, h, Bool.false_eq_true, if_false]

theorem chars_take_drop (T : List Tok) (n : Nat) :
    chars (T.take n) ++ chars (T.drop n) = chars T := by
  rw [← chars_append, List.take_append_drop]

/-- A pass changes no code unit. -/
theorem chars_wrapTok (P : Platform) (v : JSString) (fT : Nat) (T : List Tok) :
    chars (wrapTok P v fT T) = chars T := by
  induction fT generalizing T with
  | zero => rfl
  | succ fT ih =>
    cases T with
    | nil => rfl
    | cons t ts =>
      by_cases hm : matchesAt P v (leadChars (t :: ts)) = true
      · simp only [wrapTok, hm, if_true]
        show chars ((t :: ts).take v.length ++ Tok.mark false :: _) = _
        rw [chars_append]
        show chars _ ++ chars (wrapTok P v fT _) = _
        rw [ih, chars_take_drop]
      · have hmf : matchesAt P v (leadChars (t :: ts)) = false := by simpa using hm
        rw [wrapTok_cons_false P v fT t ts hmf]
        cases t with
        | mark b => exact ih ts
        | unit c => simp only [chars, ih]

/-- A pass keeps what is highlighted and only adds to it. -/
theorem readTok_wrapTok (P : Platform) (v : JSString) (fT : Nat) (T : List Tok) (d : Nat) :
    List.Forall₂ FlagLe (readTok d T) (readTok d (wrapTok P v fT T)) := by
  induction fT generalizing T d with
  | zero => exact forall2_flagLe_refl _
  | succ fT ih =>
    cases T with
    | nil => exact forall2_flagLe_refl _
    | cons t ts =>
      by_cases hm : matchesAt P v (leadChars (t :: ts)) = true
      · have hL := matchesAt_length P v _ hm
        rw [wrapTok_cons_true P v fT _ (by simp) hm]
        conv_lhs => rw [← List.take_append_drop v.length (t :: ts), take_of_le_lead _ _ hL]
        rw [readTok_units]
        show List.Forall₂ FlagLe _ (readTok (d + 1) (_ ++ Tok.mark false :: _))
        rw [readTok_units]
        show List.Forall₂ FlagLe _ (_ ++ readTok d _)
        have hd : decide (0 < d + 1) = true := by simp
        rw [hd]
        exact forall2_flagLe_append (forall2_flagLe_map _ _) (ih ((t :: ts).drop v.length) d)
      · have hmf : matchesAt P v (leadChars (t :: ts)) = false := by simpa using hm
        rw [wrapTok_cons_false P v fT t ts hmf]
        cases t with
        | mark b =>
          cases b
          · exact ih ts (d - 1)
          · exact ih ts (d + 1)
        | unit c => exact List.Forall₂.cons ⟨rfl, id⟩ (ih ts d)

/-- The scan passes a stretch of tokens in which no match reaches beyond the
stretch: the stretch keeps its code units and the scan goes on behind it. -/
theorem wrapTok_prefix (P : Platform) (v : JSString) (hv : v ≠ []) :
    ∀ (fT : Nat) (A Y : List Tok), (A ++ Y).length ≤ fT →
      (∀ A1 A2, A = A1 ++ A2 → A2 ≠ [] → matchesAt P v (leadChars (A2 ++ Y)) = true →
        v.length ≤ (leadChars A2).length) →
      ∃ A3 f2, Y.length ≤ f2 ∧ chars A3 = chars A
        ∧ wrapTok P v fT (A ++ Y) = A3 ++ wrapTok P v f2 Y := by
  have hvl : 0 < v.length := List.length_pos.mpr hv
  intro fT
  induction fT with
  | zero =>
    intro A Y hlen _
    have hA : A = [] := by
      cases A with
      | nil => rfl
      | cons a as => simp at hlen
    subst hA
    exact ⟨[], 0, by simpa using hlen, rfl, rfl⟩
  | succ fT ih =>
    intro A Y hlen hL
    cases A with
    | nil => exact ⟨[], fT + 1, by simpa using hlen, rfl, rfl⟩
    | cons t A3 =>
      by_cases hm : matchesAt P v (leadChars (t :: A3 ++ Y)) = true
      · have h1 : v.length ≤ (leadChars (t :: A3)).length :=
          hL [] (t :: A3) rfl (by simp) hm
        have h2 : v.length ≤ (t :: A3).length := le_trans h1 (leadChars_length_le _)
        have hlead : (leadChars (t :: A3 ++ Y)).take v.length
            = (leadChars (t :: A3)).take v.length := by
          have e1 := take_of_le_lead (t :: A3 ++ Y) v.length (matchesAt_length P v _ hm)
          have e2 := take_of_le_lead (t :: A3) v.length h1
          rw [List.take_append_of_le_length h2, e2] at e1
          have := congrArg chars e1
          rw [chars_units, chars_units] at this
          exact this.symm
        have hdrop : (t :: A3 ++ Y).drop v.length = (t :: A3).drop v.length ++ Y :=
          List.drop_append_of_le_length h2
        have hlen2 : ((t :: A3).drop v.length ++ Y).length ≤ fT := by
          rw [← hdrop, List.length_drop]
          omega
        obtain ⟨A4, f2, hf2, hc, he⟩ := ih ((t :: A3).drop v.length) Y hlen2
          (fun B1 B2 hB hne hmB => hL ((t :: A3).take v.length ++ B1) B2
            (by rw [List.append_assoc, ← hB, List.take_append_drop]) hne hmB)
        refine ⟨Tok.mark true :: ((leadChars (t :: A3)).take v.length).map Tok.unit
          ++ Tok.mark false :: A4, f2, hf2, ?_, ?_⟩
        · show chars (_ ++ Tok.mark false :: A4) = _
          rw [chars_append]
          show chars (List.map Tok.unit _) ++ chars A4 = _
          rw [chars_units, hc]
          have := chars_take_drop (t :: A3) v.length
          rw [take_of_le_lead _ _ h1, chars_units] at this
          exact this
        · rw [wrapTok_cons_true P v fT _ (by simp) hm, hlead, hdrop, he]
          simp only [List.cons_append, List.append_assoc]
      · have hmf : matchesAt P v (leadChars (t :: (A3 ++ Y))) = false := by simpa using hm
        have hlen2 : (A3 ++ Y).length ≤ fT := by
          simp only [List.cons_append, List.length_cons] at hlen
          omega
        obtain ⟨A4, f2, hf2, hc, he⟩ := ih A3 Y hlen2
          (fun B1 B2 hB hne hmB => hL (t :: B1) B2 (by rw [hB]; rfl) hne hmB)
        refine ⟨t :: A4, f2, hf2, ?_, ?_⟩
        · cases t with
          | mark b => exact hc
          | unit c => simp only [chars, hc]
        · show wrapTok P v (fT + 1) (t :: (A3 ++ Y)) = _
          rw [wrapTok_cons_false P v fT t (A3 ++ Y) hmf, he]
          rfl

/-- The scan copies a run of code units at none of which a match starts. -/
theorem wrapTok_units_copy (P : Platform) (v : JSString) (cs : JSString) :
    ∀ (fT : Nat) (Y : List Tok), (cs.map Tok.unit ++ Y).length ≤ fT →
      (∀ c1 c2, cs = c1 ++ c2 → c2 ≠ [] →
        matchesAt P v (leadChars (c2.map Tok.unit ++ Y)) = false) →
      ∃ f2, Y.length ≤ f2
        ∧ wrapTok P v fT (cs.map Tok.unit ++ Y) = cs.map Tok.unit ++ wrapTok P v f2 Y := by
  induction cs with
  | nil =>
    intro fT Y hlen _
    exact ⟨fT, by simpa using hlen, rfl⟩
  | cons c cs ih =>
    intro fT Y hlen hno
    have hlen1 : 1 + (cs.map Tok.unit ++ Y).length ≤ fT := by
      simp only [List.map_cons, List.cons_append, List.length_cons] at hlen
      omega
    obtain ⟨f, rfl⟩ : ∃ f, fT = f + 1 := ⟨fT - 1, by omega⟩
    have h0 : matchesAt P v (leadChars (Tok.unit c :: (cs.map Tok.unit ++ Y))) = false :=
      hno [] (c :: cs) rfl (by simp)
    obtain ⟨f2, hf2, he⟩ := ih f Y (by omega)
      (fun c1 c2 hc hne => hno (c :: c1) c2 (by rw [hc]; rfl) hne)
    refine ⟨f2, hf2, ?_⟩
    show wrapTok P v (f + 1) (Tok.unit c :: (cs.map Tok.unit ++ Y)) = _
    rw [wrapTok_cons_false P v f (Tok.unit c) (cs.map Tok.unit ++ Y) h0, he]
    rfl

/-! ### One pass around a fixed occurrence -/

theorem reach_bound (P : Platform) (v : JSString) (A Y : List Tok)
    (hleft : ∀ q, q < (chars A).length →
      matchesAt P v ((chars (A ++ Y)).drop q) = true → q + v.length ≤ (chars A).length) :
    ∀ A1 A2, A = A1 ++ A2 → A2 ≠ [] → matchesAt P v (leadChars (A2 ++ Y)) = true →
      v.length ≤ (leadChars A2).length := by
  intro A1 A2 hA hne hm
  rcases leadChars_append A2 Y with h | h
  · rw [h] at hm
    exact matchesAt_length P v _ hm
  · have hc2 : chars A2 = leadChars A2 := by
      conv_lhs => rw [h]
      rw [chars_units]
    have hl2 : (leadChars A2).length = A2.length := by
      conv_rhs => rw [h]
      rw [List.length_map]
    have hpos : 0 < A2.length := List.length_pos.mpr hne
    have hcA : (chars A).length = (chars A1).length + (leadChars A2).length := by
      rw [hA, chars_append, List.length_append, hc2]
    have hdrop : (chars (A ++ Y)).drop (chars A1).length = chars (A2 ++ Y) := by
      rw [hA, List.append_assoc, chars_append]
      exact List.drop_left _ _
    have hocc : matchesAt P v ((chars (A ++ Y)).drop (chars A1).length) = true := by
      rw [hdrop]
      exact matchesAt_of_prefix P v _ _ hm (leadChars_prefix_chars _)
    have := hleft (chars A1).length (by omega) hocc
    omega

theorem wrapTok_at_match (P : Platform) (v : JSString) (mid : JSString) (B : List Tok)
    (f : Nat) (hmid : mid ≠ []) (hL : v.length = mid.length)
    (hm : matchesAt P v (leadChars (mid.map Tok.unit ++ B)) = true) :
    wrapTok P v (f + 1) (mid.map Tok.unit ++ B)
      = Tok.mark true :: mid.map Tok.unit ++ Tok.mark false :: wrapTok P v f B := by
  have hne : mid.map Tok.unit ++ B ≠ [] := by
    cases mid with
    | nil => exact absurd rfl hmid
    | cons c cs => simp
  rw [wrapTok_cons_true P v f _ hne hm, leadChars_units_append,
    List.take_left' hL.symm, List.drop_left' (by rw [List.length_map]; exact hL.symm)]

/-- A pass for a word none of whose occurrences overlaps a given span of the text,
other than on the span itself, leaves the tokens of the span next to one another. -/
theorem wrapTok_keeps (P : Platform) (u : JSString) (hu : u ≠ []) (A B : List Tok)
    (mid : JSString) (hmid : mid ≠ []) (fT : Nat)
    (hlen : (A ++ (mid.map Tok.unit ++ B)).length ≤ fT)
    (hno : ∀ q, matchesAt P u ((chars A ++ (mid ++ chars B)).drop q) = true →
      q < (chars A).length + mid.length → (chars A).length < q + u.length →
      q = (chars A).length ∧ u.length = mid.length) :
    ∃ A2 B2, wrapTok P u fT (A ++ (mid.map Tok.unit ++ B)) = A2 ++ (mid.map Tok.unit ++ B2)
      ∧ chars A2 = chars A ∧ chars B2 = chars B := by
  have hul : 0 < u.length := List.length_pos.mpr hu
  have hml : 0 < mid.length := List.length_pos.mpr hmid
  have htext : chars (A ++ (mid.map Tok.unit ++ B)) = chars A ++ (mid ++ chars B) := by
    rw [chars_append, chars_append, chars_units]
  obtain ⟨A3, f2, hf2, hcA, he⟩ := wrapTok_prefix P u hu fT A (mid.map Tok.unit ++ B) hlen
    (reach_bound P u A _ (by
      intro q hq hocc
      rw [htext] at hocc
      by_contra hc
      have := (hno q hocc (by omega) (by omega)).1
      omega))
  have hf2pos : 1 ≤ f2 := by
    rw [List.length_append, List.length_map] at hf2
    omega
  obtain ⟨f, rfl⟩ : ∃ f, f2 = f + 1 := ⟨f2 - 1, by omega⟩
  have hoccAt : ∀ c1 c2, mid = c1 ++ c2 →
      matchesAt P u (leadChars (c2.map Tok.unit ++ B)) = true →
      matchesAt P u ((chars A ++ (mid ++ chars B)).drop ((chars A).length + c1.length))
        = true := by
    intro c1 c2 hc hm
    have hd : (chars A ++ (mid ++ chars B)).drop ((chars A).length + c1.length)
        = c2 ++ chars B := by
      rw [hc, List.append_assoc, ← List.append_assoc (chars A) c1]
      exact List.drop_left' (by rw [List.length_append])
    rw [hd]
    have hp : leadChars (c2.map Tok.unit ++ B) <+: c2 ++ chars B := by
      rw [leadChars_units_append]
      exact (List.prefix_append_right_inj c2).mpr (leadChars_prefix_chars B)
    exact matchesAt_of_prefix P u _ _ hm hp
  by_cases hm : matchesAt P u (leadChars (mid.map Tok.unit ++ B)) = true
  · have hocc := hoccAt [] mid rfl hm
    have hL := (hno _ hocc (by simp; omega) (by simp; omega)).2
    rw [wrapTok_at_match P u mid B f hmid hL hm] at he
    refine ⟨A3 ++ [Tok.mark true], Tok.mark false :: wrapTok P u f B, ?_, ?_, ?_⟩
    · rw [he]
      simp only [List.append_assoc, List.cons_append, List.nil_append]
    · rw [chars_append, hcA]
      simp [chars]
    · show chars (wrapTok P u f B) = _
      exact chars_wrapTok P u f B
  · have hmf : matchesAt P u (leadChars (mid.map Tok.unit ++ B)) = false := by simpa using hm
    obtain ⟨f3, _, he3⟩ := wrapTok_units_copy P u mid (f + 1) B hf2 (by
      intro c1 c2 hc hne
      by_contra hcm
      have hcm2 : matchesAt P u (leadChars (c2.map Tok.unit ++ B)) = true := by simpa using hcm
      have hocc := hoccAt c1 c2 hc hcm2
      have hc2l : 0 < c2.length := List.length_pos.mpr hne
      have hml2 : mid.length = c1.length + c2.length := by rw [hc, List.length_append]
      have hq := (hno _ hocc (by omega) (by omega)).1
      have hc1 : c1 = [] := List.length_eq_zero.mp (by omega)
      subst hc1
      rw [List.nil_append] at hc
      subst hc
      exact hm hcm2)
    rw [he3] at he
    exact ⟨A3, wrapTok P u f3 B, he, hcA, chars_wrapTok P u f3 B⟩

/-- The pass for a word wraps an occurrence of it whose tokens are next to one
another and which no occurrence of the word further left overlaps. -/
theorem wrapTok_wraps (P : Platform) (v : JSString) (hv : v ≠ []) (A B : List Tok)
    (mid : JSString) (fT : Nat) (hlen : (A ++ (mid.map Tok.unit ++ B)).length ≤ fT)
    (hmatch : matchesAt P v mid = true) (hL : v.length = mid.length)
    (hleft : ∀ q, q < (chars A).length →
      matchesAt P v ((chars A ++ (mid ++ chars B)).drop q) = true →
      q + v.length ≤ (chars A).length) :
    ∃ A2 B2, wrapTok P v fT (A ++ (mid.map Tok.unit ++ B))
        = A2 ++ (Tok.mark true :: mid.map Tok.unit ++ Tok.mark false :: B2)
      ∧ chars A2 = chars A := by
  have hvl : 0 < v.length := List.length_pos.mpr hv
  have hmid : mid ≠ [] := by
    intro h
    rw [h, List.length_nil] at hL
    omega
  have htext : chars (A ++ (mid.map Tok.unit ++ B)) = chars A ++ (mid ++ chars B) := by
    rw [chars_append, chars_append, chars_units]
  obtain ⟨A3, f2, hf2, hcA, he⟩ := wrapTok_prefix P v hv fT A (mid.map Tok.unit ++ B) hlen
    (reach_bound P v A _ (by
      intro q hq hocc
      rw [htext] at hocc
      exact hleft q hq hocc))
  have hf2pos : 1 ≤ f2 := by
    rw [List.length_append, List.length_map] at hf2
    omega
  obtain ⟨f, rfl⟩ : ∃ f, f2 = f + 1 := ⟨f2 - 1, by omega⟩
  have hm : matchesAt P v (leadChars (mid.map Tok.unit ++ B)) = true := by
    rw [leadChars_units_append]
    exact matchesAt_append P v _ _ hmatch
  rw [wrapTok_at_match P v mid B f hmid hL hm] at he
  exact ⟨A3, wrapTok P v f B, he, hcA⟩

/-- The code units between a pair of markers read as highlighted. -/
theorem readTok_wrapped (A B : List Tok) (mid : JSString) (k : Nat) (hk : k < mid.length) :
    ((readTok 0 (A ++ (Tok.mark true :: mid.map Tok.unit ++ Tok.mark false :: B))).map
      Prod.snd)[(chars A).length + k]? = some true := by
  rw [readTok_append, List.map_append,
    List.getElem?_append_right (by rw [List.length_map, readTok_length]; omega)]
  simp only [List.length_map, readTok_length, Nat.add_sub_cancel_left]
  show ((readTok (depthAfter 0 A + 1) (mid.map Tok.unit ++ Tok.mark false :: B)).map
    Prod.snd)[k]? = some true
  rw [readTok_units, List.map_append,
    List.getElem?_append_left (by rw [List.length_map, List.length_map]; exact hk)]
  have hd : decide (0 < depthAfter 0 A + 1) = true := by simp
  rw [hd]
  exact flags_head_part mid k hk

/-! ### All the passes -/

theorem tokPasses_cons (P : Platform) (w : JSString) (ws : List JSString) (T : List Tok) :
    tokPasses P (w :: ws) T = tokPasses P ws (wrapTok P w T.length T) := rfl

theorem tokPasses_append (P : Platform) (a b : List JSString) (T : List Tok) :
    tokPasses P (a ++ b) T = tokPasses P b (tokPasses P a T) := by
  unfold tokPasses
  rw [List.foldl_append]

theorem chars_tokPasses (P : Platform) (ws : List JSString) (T : List Tok) :
    chars (tokPasses P ws T) = chars T := by
  induction ws generalizing T with
  | nil => rfl
  | cons w ws ih => rw [tokPasses_cons, ih, chars_wrapTok]

theorem readTok_tokPasses (P : Platform) (ws : List JSString) (T : List Tok) (d : Nat) :
    List.Forall₂ FlagLe (readTok d T) (readTok d (tokPasses P ws T)) := by
  induction ws generalizing T with
  | nil => exact forall2_flagLe_refl _
  | cons w ws ih =>
    rw [tokPasses_cons]
    exact forall2_flagLe_trans (readTok_wrapTok P w T.length T d) (ih _)

theorem foldl_replace_render (P : Platform) (rest : List JSString)
    (hne : ∀ v ∈ rest, v ≠ []) (hsafe : ∀ v ∈ rest, MarkerSafe P v) (T : List Tok) :
    rest.foldl (fun result word => replaceWithMark P (escapeRegex word) result) (render T)
      = render (tokPasses P rest T) := by
  induction rest generalizing T with
  | nil => rfl
  | cons v vs ih =>
    have hv := hne v (List.mem_cons_self _ _)
    rw [List.foldl_cons, replaceWithMark_escaped P v _ hv,
      wrapMatches_render P v hv T.length _ T (le_refl _) (le_refl _)
        (Or.inl (hsafe v (List.mem_cons_self _ _))),
      ih (fun u hu => hne u (List.mem_cons_of_mem _ hu))
        (fun u hu => hsafe u (List.mem_cons_of_mem _ hu)), tokPasses_cons]

theorem tokPasses_nil (P : Platform) (ws : List JSString) : tokPasses P ws [] = [] := by
  induction ws with
  | nil => rfl
  | cons w ws ih => rw [tokPasses_cons, wrapTok_nil, ih]

/-- The output of `highlightText` is the rendering of the passes on the tokens of
the text, when no word after the first can touch a marker. -/
theorem highlightText_tokens (P : Platform) (text query w : JSString) (rest : List JSString)
    (hw : (split query).filter (fun w => decide (w.length > 1)) = w :: rest)
    (hsafe : ∀ u ∈ rest, MarkerSafe P u) :
    highlightText P text query = render (tokPasses P (w :: rest) (text.map Tok.unit)) := by
  obtain ⟨hne, hout⟩ := highlightText_words P text query w rest hw
  by_cases ht : text = []
  · subst ht
    have : highlightText P [] query = [] := by simp [highlightText]
    rw [this]
    show [] = render (tokPasses P (w :: rest) [])
    rw [tokPasses_nil]
    rfl
  · have hwne := hne w (List.mem_cons_self _ _)
    have hfirst : wrapMatches P w text.length text
        = render (wrapTok P w (text.map Tok.unit).length (text.map Tok.unit)) := by
      have h := wrapMatches_render P w hwne (text.map Tok.unit).length text.length
        (text.map Tok.unit) (by rw [render_units]) (le_refl _)
        (Or.inr (fun t ht => by
          obtain ⟨c, _, hc⟩ := List.mem_map.mp ht
          exact ⟨c, hc.symm⟩))
      rw [render_units] at h
      exact h
    rw [hout ht, hfirst, foldl_replace_render P rest
      (fun v hv => hne v (List.mem_cons_of_mem _ hv)) hsafe, tokPasses_cons]

/-- The passes for words none of whose occurrences overlaps a given span of the
text, other than on the span itself, leave the tokens of the span next to one
another. -/
theorem tokPasses_keep (P : Platform) (text mid : JSString) (p : Nat) (hmid : mid ≠ [])
    (pre : List JSString) (hne : ∀ u ∈ pre, u ≠ [])
    (hno : ∀ u ∈ pre, ∀ q, matchesAt P u (text.drop q) = true →
      q < p + mid.length → p < q + u.length → q = p ∧ u.length = mid.length) :
    ∀ A B : List Tok, chars A ++ (mid ++ chars B) = text → (chars A).length = p →
      ∃ A2 B2, tokPasses P pre (A ++ (mid.map Tok.unit ++ B)) = A2 ++ (mid.map Tok.unit ++ B2)
        ∧ chars A2 = chars A ∧ chars B2 = chars B := by
  induction pre with
  | nil =>
    intro A B _ _
    exact ⟨A, B, rfl, rfl, rfl⟩
  | cons u us ih =>
    intro A B htext hp
    obtain ⟨A2, B2, he, hA, hB⟩ := wrapTok_keeps P u (hne u (List.mem_cons_self _ _)) A B mid
      hmid _ (le_refl _) (by
        intro q hocc h1 h2
        rw [htext] at hocc
        rw [hp] at h1 h2 ⊢
        exact hno u (List.mem_cons_self _ _) q hocc h1 h2)
    obtain ⟨A3, B3, he3, hA3, hB3⟩ := ih (fun x hx => hne x (List.mem_cons_of_mem _ hx))
      (fun x hx => hno x (List.mem_cons_of_mem _ hx)) A2 B2 (by rw [hA, hB]; exact htext)
      (by rw [hA]; exact hp)
    refine ⟨A3, B3, ?_, hA3.trans hA, hB3.trans hB⟩
    rw [tokPasses_cons, he, he3]

/-- Every occurrence of a query word reads as highlighted after the passes, when no
occurrence of an earlier word overlaps it other than on the same span and no
occurrence of the word itself that starts further left overlaps it. -/
theorem tokPasses_marks (P : Platform) (text : JSString) (pre : List JSString) (v : JSString)
    (post : List JSString) (p : Nat) (hne : ∀ u ∈ pre ++ v :: post, u ≠ [])
    (hocc : matchesAt P v (text.drop p) = true)
    (hno : ∀ u ∈ pre, ∀ q, matchesAt P u (text.drop q) = true →
      q < p + v.length → p < q + u.length → q = p ∧ u.length = v.length)
    (hleft : ∀ q, q < p → matchesAt P v (text.drop q) = true → q + v.length ≤ p) :
    ∀ k, k < v.length →
      ((readTok 0 (tokPasses P (pre ++ v :: post) (text.map Tok.unit))).map Prod.snd)[p + k]?
        = some true := by
  have hv : v ≠ [] := hne v (by simp)
  have hvl : 0 < v.length := List.length_pos.mpr hv
  have hlen := matchesAt_length P v _ hocc
  rw [List.length_drop] at hlen
  have hmidl : ((text.drop p).take v.length).length = v.length := by
    rw [List.length_take, List.length_drop]
    omega
  have hmid : (text.drop p).take v.length ≠ [] := by
    intro h
    rw [h, List.length_nil] at hmidl
    omega
  have hmatch : matchesAt P v ((text.drop p).take v.length) = true := by
    have h := hocc
    rw [← List.take_append_drop v.length (text.drop p)] at h
    exact matchesAt_of_append P v _ _ h (by rw [hmidl])
  have htext : text.take p ++ ((text.drop p).take v.length ++ text.drop (p + v.length))
      = text := by
    have h1 : (text.drop p).drop v.length = text.drop (p + v.length) := by
      rw [List.drop_drop]
    rw [← h1, List.take_append_drop, List.take_append_drop]
  have hT0 : text.map Tok.unit
      = (text.take p).map Tok.unit
        ++ (((text.drop p).take v.length).map Tok.unit
          ++ (text.drop (p + v.length)).map Tok.unit) := by
    conv_lhs => rw [← htext]
    rw [List.map_append, List.map_append]
  have hAp : (chars ((text.take p).map Tok.unit)).length = p := by
    rw [chars_units, List.length_take]
    omega
  obtain ⟨A2, B2, he, hA, hB⟩ := tokPasses_keep P text _ p hmid pre
    (fun u hu => hne u (List.mem_append_left _ hu))
    (by rw [hmidl]; exact hno)
    ((text.take p).map Tok.unit) ((text.drop (p + v.length)).map Tok.unit)
    (by rw [chars_units, chars_units]; exact htext) hAp
  have hA2 : (chars A2).length = p := by rw [hA]; exact hAp
  have htext2 : chars A2 ++ ((text.drop p).take v.length ++ chars B2) = text := by
    rw [hA, hB, chars_units, chars_units]
    exact htext
  obtain ⟨A3, B3, he3, hA3⟩ := wrapTok_wraps P v hv A2 B2 _ _ (le_refl _) hmatch hmidl.symm
    (by
      intro q hq hm
      rw [htext2] at hm
      rw [hA2] at hq ⊢
      exact hleft q hq hm)
  intro k hk
  have hstep : tokPasses P (pre ++ v :: post) (text.map Tok.unit)
      = tokPasses P post
          (A3 ++ (Tok.mark true :: ((text.drop p).take v.length).map Tok.unit
            ++ Tok.mark false :: B3)) := by
    rw [tokPasses_append, hT0, he, tokPasses_cons, he3]
  rw [hstep]
  apply forall2_flagLe_snd (readTok_tokPasses P post _ 0)
  have hw := readTok_wrapped A3 B3 ((text.drop p).take v.length) k (by rw [hmidl]; exact hk)
  rw [hA3, hA2] at hw
  exact hw

/-- The passes of `highlightText` on a marker-free text, for a query with at least
one word longer than 1 code unit. -/
theorem highlightText_marks (P : Platform) (text query w : JSString)
    (rest : List JSString) (hfree : MarkFree text)
    (hw : (split query).filter (fun w => decide (w.length > 1)) = w :: rest)
    (hsafe : ∀ u ∈ rest, MarkerSafe P u) :
    stripMarks (highlightText P text query) = text
      ∧ ∀ (pre : List JSString) (v : JSString) (post : List JSString) (p : Nat),
          w :: rest = pre ++ v :: post → matchesAt P v (text.drop p) = true →
            (∀ k, k < v.length →
              (highlighted (highlightText P text query))[p + k]? = some true)
            ∨ (∃ u ∈ pre, ∃ q, matchesAt P u (text.drop q) = true
                ∧ q < p + v.length ∧ p < q + u.length ∧ ¬ (q = p ∧ u.length = v.length))
            ∨ (∃ q, q < p ∧ matchesAt P v (text.drop q) = true ∧ p < q + v.length) := by
  have hout := highlightText_tokens P text query w rest hw hsafe
  have hchars : chars (tokPasses P (w :: rest) (text.map Tok.unit)) = text := by
    rw [chars_tokPasses, chars_units]
  have hread : maskAux 0 0 (highlightText P text query)
      = readTok 0 (tokPasses P (w :: rest) (text.map Tok.unit)) := by
    rw [hout]
    exact maskAux_render _ 0 (by rw [hchars]; exact hfree)
  have hne := (highlightText_words P text query w rest hw).1
  unfold stripMarks highlighted
  rw [hread]
  refine ⟨?_, ?_⟩
  · rw [readTok_fst, hchars]
  · intro pre v post p hsplit hocc
    by_cases h1 : ∃ u ∈ pre, ∃ q, matchesAt P u (text.drop q) = true
        ∧ q < p + v.length ∧ p < q + u.length ∧ ¬ (q = p ∧ u.length = v.length)
    · exact Or.inr (Or.inl h1)
    · by_cases h2 : ∃ q, q < p ∧ matchesAt P v (text.drop q) = true ∧ p < q + v.length
      · exact Or.inr (Or.inr h2)
      · left
        rw [hsplit]
        apply tokPasses_marks P text pre v post p (by rw [← hsplit]; exact hne) hocc
        · intro u hu q hm hq1 hq2
          by_contra hc
          exact h1 ⟨u, hu, q, hm, hq1, hq2, hc⟩
        · intro q hq hm
          by_contra hc
          exact h2 ⟨q, hq, hm, by omega⟩

/-- C10, as stated, fails. Words that overlap in the text: for `abc` and the query
`ab bc` the output is `<mark>ab</mark>c`, where the occurrence of `bc` is not inside
a pair. Words that occur in the marker text: for `ma` and the query `ma ar` the
second pass wraps the `ar` of the markers themselves, and deleting the markers
from the output does not give `ma` back. One word that overlaps itself: for `aaa`
and the query `aa` the occurrence at index 1 is not inside a pair. A word that
reaches from a marker into the text: for `xy` and the query `xy >x` the second pass
wraps the `>` of the opening marker with the `x` behind it, and deleting the
markers does not give `xy` back. -/
theorem C10_overlap_and_marker_counterexample :
    (MarkFree (js "abc")
        ∧ highlightText samplePlatform (js "abc") (js "ab bc") = js "<mark>ab</mark>c"
        ∧ matchesAt samplePlatform (js "bc") ((js "abc").drop 1) = true
        ∧ highlighted (highlightText samplePlatform (js "abc") (js "ab bc"))
            = [true, true, false])
      ∧ (MarkFree (js "ma")
        ∧ highlightText samplePlatform (js "ma") (js "ma ar")
            = js "<m<mark>ar</mark>k>ma</m<mark>ar</mark>k>"
        ∧ stripMarks (highlightText samplePlatform (js "ma") (js "ma ar")) ≠ js "ma")
      ∧ (MarkFree (js "aaa")
        ∧ matchesAt samplePlatform (js "aa") ((js "aaa").drop 1) = true
        ∧ highlighted (highlightText samplePlatform (js "aaa") (js "aa"))
            = [true, true, false])
      ∧ (MarkFree (js "xy")
        ∧ highlightText samplePlatform (js "xy") (js "xy >x")
            = js "<mark<mark>>x</mark>y</mark>"
        ∧ stripMarks (highlightText samplePlatform (js "xy") (js "xy >x")) ≠ js "xy") := by
  decide

/-- C10, amended: for every text containing no highlight markers and every query in
which no word longer than 1 code unit, other than the first such word, has a match
that can overlap, up to case, a marker `<mark>` or `</mark>`: deleting every
`<mark>` and `</mark>` from `highlightText(text, query)` gives back `text` exactly;
and every case-insensitive occurrence in `text` of every query word longer than 1
code unit lies inside a `<mark>`...`</mark>` pair of the output throughout, unless
it overlaps an occurrence, on another span, of a word that comes earlier in the
query, or an occurrence of the same word that starts further left. -/
theorem C10_highlight_marks_occurrences (P : Platform) (text query : JSString)
    (hfree : MarkFree text)
    (hsafe : ∀ u ∈ ((split query).filter (fun w => decide (w.length > 1))).tail,
      MarkerSafe P u) :
    stripMarks (highlightText P text query) = text
      ∧ ∀ (pre : List JSString) (v : JSString) (post : List JSString) (p : Nat),
          (split query).filter (fun w => decide (w.length > 1)) = pre ++ v :: post →
          matchesAt P v (text.drop p) = true →
            (∀ k, k < v.length →
              (highlighted (highlightText P text query))[p + k]? = some true)
            ∨ (∃ u ∈ pre, ∃ q, matchesAt P u (text.drop q) = true
                ∧ q < p + v.length ∧ p < q + u.length ∧ ¬ (q = p ∧ u.length = v.length))
            ∨ (∃ q, q < p ∧ matchesAt P v (text.drop q) = true ∧ p < q + v.length) := by
  cases hw : (split query).filter (fun w => decide (w.length > 1)) with
  | nil =>
    have hout : highlightText P text query = text := by
      unfold highlightText
      split_ifs
      · rfl
      · simp only [hw, List.foldl_nil]
    refine ⟨?_, ?_⟩
    · rw [hout]
      unfold stripMarks
      have h := maskAux_render (text.map Tok.unit) 0 (by rw [chars_units]; exact hfree)
      rw [render_units] at h
      rw [h, readTok_fst, chars_units]
    · intro pre v post p hsplit
      exact absurd hsplit (by simp)
  | cons w rest =>
    rw [hw] at hsafe
    exact highlightText_marks P text query w rest hfree hw hsafe

/-- C10, amended, on the content `Go is a language` and the query `go language`: the
output is `<mark>Go</mark> is a <mark>language</mark>`, deleting the markers gives
the content back, and the occurrence of `language` at index 8 is highlighted
throughout. -/
theorem C10_highlight_marks_occurrences_witness :
    stripMarks (highlightText samplePlatform (js "Go is a language") (js "go language"))
        = js "Go is a language"
      ∧ ((∀ k, k < (js "language").length →
            (highlighted (highlightText samplePlatform (js "Go is a language")
              (js "go language")))[8 + k]? = some true)
          ∨ (∃ u ∈ [js "go"], ∃ q,
              matchesAt samplePlatform u ((js "Go is a language").drop q) = true
                ∧ q < 8 + (js "language").length ∧ 8 < q + u.length
                ∧ ¬ (q = 8 ∧ u.length = (js "language").length))
          ∨ (∃ q, q < 8
              ∧ matchesAt samplePlatform (js "language") ((js "Go is a language").drop q) = true
              ∧ 8 < q + (js "language").length))
      ∧ highlightText samplePlatform (js "Go is a language") (js "go language")
          = js "<mark>Go</mark> is a <mark>language</mark>"
      ∧ highlighted (highlightText samplePlatform (js "Go is a language") (js "go language"))
          = [true, true, false, false, false, false, false, false,
             true, true, true, true, true, true, true, true] :=
  have h := C10_highlight_marks_occurrences samplePlatform (js "Go is a language")
    (js "go language") (by decide) (by decide)
  ⟨h.1, h.2 [js "go"] (js "language") [] 8 (by decide) (by decide), by decide, by decide⟩

/-! ## C11: debounce -/

theorem advance_idle (P : Platform) (gap : Nat) (s : Engine)
    (h : ∀ tm ∈ s.timers, s.now + gap < tm.due) :
    advance P gap s = { s with now := s.now + gap } := by
  have h1 : s.timers.filter (fun tm => decide (tm.due ≤ s.now + gap)) = [] := by
    rw [List.filter_eq_nil_iff]
    intro tm htm
    have := h tm htm
    simp only [decide_eq_true_eq]
    omega
  have h2 : s.timers.filter (fun tm => decide (¬ tm.due ≤ s.now + gap)) = s.timers := by
    rw [List.filter_eq_self]
    intro tm htm
    have := h tm htm
    simp only [decide_eq_true_eq]
    omega
  unfold advance
  simp only [h1, h2, List.foldl_nil]

theorem advance_fire (P : Platform) (gap : Nat) (s : Engine) (tm : Timer)
    (ht : s.timers = [tm]) (hdue : tm.due ≤ s.now + gap) :
    advance P gap s = runTimer P { s with now := s.now + gap, timers := [] } := by
  unfold advance
  simp only [ht, List.filter_cons, List.filter_nil, hdue, decide_True, decide_False,
    not_true_eq_false, if_true, if_false, List.foldl_cons, List.foldl_nil]
  simp

theorem singleSlot_advance (P : Platform) (gap : Nat) (s : Engine) (h : SingleSlot s) :
    SingleSlot (advance P gap s) := by
  rcases h with h | ⟨tm, ht, hid, hdue⟩
  · rw [advance_idle P gap s (by rw [h]; intro tm htm; cases htm)]
    exact Or.inl h
  · by_cases hd : tm.due ≤ s.now + gap
    · rw [advance_fire P gap s tm ht hd]
      exact Or.inl rfl
    · rw [advance_idle P gap s (by
        rw [ht]; intro x hx; rw [List.mem_singleton] at hx; subst hx; omega)]
      exact Or.inr ⟨tm, ht, hid, by show s.now + gap < tm.due; omega⟩

/-- The listener leaves exactly the timer it has just created. -/
theorem onInput_slot (s : Engine) (h : SingleSlot s) :
    (onInput s).timers = [{ id := s.nextTimerId, due := s.now + debounceDelay }]
      ∧ (onInput s).searchTimeout = some s.nextTimerId
      ∧ (onInput s).now = s.now ∧ (onInput s).page = s.page
      ∧ (onInput s).autoSearches = s.autoSearches := by
  rcases h with h | ⟨tm, ht, hid, _⟩
  · cases hs : s.searchTimeout <;> simp [onInput, clearTimeout, setTimeout, hs, h]
  · simp [onInput, clearTimeout, setTimeout, hid, ht]

theorem singleSlot_step (P : Platform) (e : Event) (s : Engine) (h : SingleSlot s) :
    SingleSlot (step P e s) := by
  cases e with
  | key gap value =>
    have hb : SingleSlot (setInput value (advance P gap s)) := singleSlot_advance P gap s h
    obtain ⟨h1, h2, h3, _, _⟩ := onInput_slot _ hb
    refine Or.inr ⟨_, h1, h2, ?_⟩
    have h300 : 0 < debounceDelay := by decide
    show (onInput (setInput value (advance P gap s))).now
      < (setInput value (advance P gap s)).now + debounceDelay
    rw [h3]
    omega
  | wait gap => exact singleSlot_advance P gap s h
  | submit => exact h
  | clickOutside => exact h

theorem reachable_singleSlot (P : Platform) (s : Engine) (h : Reachable P s) :
    SingleSlot s := by
  induction h with
  | init page => exact Or.inl rfl
  | next e s _ ih => exact singleSlot_step P e s ih

theorem armed_of_first_key (P : Platform) (gap : Nat) (value : JSString) (s : Engine)
    (h : SingleSlot s) :
    Armed (step P (Event.key gap value) s) (advance P gap s).page value
      (advance P gap s).autoSearches := by
  have hb : SingleSlot (setInput value (advance P gap s)) := singleSlot_advance P gap s h
  obtain ⟨h1, h2, h3, h4, h5⟩ := onInput_slot _ hb
  refine ⟨⟨(advance P gap s).nextTimerId, ?_, h2⟩, h4, h5⟩
  show (onInput (setInput value (advance P gap s))).timers
    = [{ id := _, due := (onInput (setInput value (advance P gap s))).now + debounceDelay }]
  rw [h1, h3]
  rfl

theorem armed_key (P : Platform) (gap : Nat) (value : JSString) (s : Engine) (base : Page)
    (old : JSString) (log : List JSString) (h : Armed s base old log)
    (hgap : gap < debounceDelay) :
    Armed (step P (Event.key gap value) s) base value log := by
  obtain ⟨⟨i, ht, hid⟩, hpage, hlog⟩ := h
  have hadv : advance P gap s = { s with now := s.now + gap } :=
    advance_idle P gap s (by
      rw [ht]; intro x hx; rw [List.mem_singleton] at hx; subst hx
      show s.now + gap < s.now + debounceDelay
      omega)
  have hslot : SingleSlot s := Or.inr ⟨_, ht, hid, by
    show s.now < s.now + debounceDelay
    have : 0 < debounceDelay := by decide
    omega⟩
  have ha := armed_of_first_key P gap value s hslot
  rw [hadv] at ha
  obtain ⟨hx, hp, hl⟩ := ha
  refine ⟨hx, ?_, ?_⟩
  · rw [hp]
    show ({ s.page with inputValue := value } : Page) = _
    rw [hpage]
  · rw [hl]
    exact hlog

theorem lastValue_cons (first : JSString) (k : Nat × JSString) (ks : List (Nat × JSString)) :
    lastValue first (k :: ks) = lastValue k.2 ks := by
  cases ks with
  | nil => rfl
  | cons a as =>
    unfold lastValue
    rw [List.getLast?_cons_cons]
    cases h : (a :: as).getLast? with
    | none => exact absurd h (by simp)
    | some x => rfl

theorem armed_keys (P : Platform) (keys : List (Nat × JSString)) (s : Engine) (base : Page)
    (first : JSString) (log : List JSString) (h : Armed s base first log)
    (hkeys : ∀ k ∈ keys, k.1 < debounceDelay) :
    Armed (run P (keyEvents keys) s) base (lastValue first keys) log := by
  induction keys generalizing s first with
  | nil => exact h
  | cons k ks ih =>
    rw [lastValue_cons]
    exact ih (step P (Event.key k.1 k.2) s) k.2
      (armed_key P k.1 k.2 s base first log h (hkeys k (List.mem_cons_self _ _)))
      (fun x hx => hkeys x (List.mem_cons_of_mem _ hx))

theorem armed_wait (P : Platform) (idle : Nat) (s : Engine) (base : Page)
    (value : JSString) (log : List JSString) (h : Armed s base value log)
    (hidle : debounceDelay ≤ idle) :
    (step P (Event.wait idle) s).timers = []
      ∧ (step P (Event.wait idle) s).autoSearches = log ++ [value]
      ∧ (step P (Event.wait idle) s).page
          = performSearch P { base with inputValue := value } := by
  obtain ⟨⟨i, ht, _⟩, hpage, hlog⟩ := h
  have hf : step P (Event.wait idle) s
      = runTimer P { s with now := s.now + idle, timers := [] } :=
    advance_fire P idle s _ ht (by show s.now + debounceDelay ≤ s.now + idle; omega)
  rw [hf]
  refine ⟨rfl, ?_, ?_⟩
  · show s.autoSearches ++ [s.page.inputValue] = _
    rw [hlog, hpage]
  · show performSearch P s.page = _
    rw [hpage]

theorem run_append (P : Platform) (a b : List Event) (s : Engine) :
    run P (a ++ b) s = run P b (run P a s) := by
  unfold run
  rw [List.foldl_append]

/-- C11: in every reachable state of the input listener at most one automatic
search is pending; a keystroke cancels the pending search and leaves exactly the
one it schedules, due 300 ms after the keystroke; and for every burst of
keystrokes in which each follows the previous by less than 300 ms, no automatic
search executes during the burst, one is pending at its end, and once 300 ms or
more pass without an event exactly one automatic search has executed since the
first keystroke, on the input value left by the last keystroke, and none is
pending. -/
theorem C11_debounce_single_search (P : Platform) (s : Engine) (hs : Reachable P s)
    (gap : Nat) (first : JSString) (keys : List (Nat × JSString))
    (hkeys : ∀ k ∈ keys, k.1 < debounceDelay) (idle : Nat) (hidle : debounceDelay ≤ idle) :
    s.timers.length ≤ 1
      ∧ (step P (Event.key gap first) s).timers
          = [{ id := s.nextTimerId, due := s.now + gap + 300 }]
      ∧ (step P (Event.key gap first) s).searchTimeout = some s.nextTimerId
      ∧ (run P (Event.key gap first :: keyEvents keys) s).autoSearches
          = (advance P gap s).autoSearches
      ∧ (run P (Event.key gap first :: keyEvents keys) s).timers.length = 1
      ∧ (run P (Event.key gap first :: keyEvents keys ++ [Event.wait idle]) s).autoSearches
          = (advance P gap s).autoSearches ++ [lastValue first keys]
      ∧ (run P (Event.key gap first :: keyEvents keys ++ [Event.wait idle]) s).timers = []
      ∧ (run P (Event.key gap first :: keyEvents keys ++ [Event.wait idle]) s).page
          = performSearch P { (advance P gap s).page with inputValue := lastValue first keys } := by
  have hslot := reachable_singleSlot P s hs
  have h1 := armed_of_first_key P gap first s hslot
  have h2 := armed_keys P keys _ _ _ _ h1 hkeys
  have h3 := armed_wait P idle _ _ _ _ h2 hidle
  have hrun : run P (Event.key gap first :: keyEvents keys) s
      = run P (keyEvents keys) (step P (Event.key gap first) s) := rfl
  have hrun2 : run P (Event.key gap first :: keyEvents keys ++ [Event.wait idle]) s
      = step P (Event.wait idle) (run P (keyEvents keys) (step P (Event.key gap first) s)) := by
    rw [run_append, hrun]
    rfl
  have hadv := singleSlot_advance P gap s hslot
  have hin := onInput_slot (setInput first (advance P gap s)) hadv
  have hnow : (advance P gap s).now = s.now + gap := by
    rcases hslot with h | ⟨tm, ht, _, _⟩
    · rw [advance_idle P gap s (by rw [h]; intro tm htm; cases htm)]
    · by_cases hd : tm.due ≤ s.now + gap
      · rw [advance_fire P gap s tm ht hd]; rfl
      · rw [advance_idle P gap s (by
          rw [ht]; intro x hx; rw [List.mem_singleton] at hx; subst hx; omega)]
  have hnext : (advance P gap s).nextTimerId = s.nextTimerId := by
    rcases hslot with h | ⟨tm, ht, _, _⟩
    · rw [advance_idle P gap s (by rw [h]; intro tm htm; cases htm)]
    · by_cases hd : tm.due ≤ s.now + gap
      · rw [advance_fire P gap s tm ht hd]; rfl
      · rw [advance_idle P gap s (by
          rw [ht]; intro x hx; rw [List.mem_singleton] at hx; subst hx; omega)]
  refine ⟨?_, ?_, ?_, ?_, ?_, ?_, ?_, ?_⟩
  · rcases hslot with h | ⟨tm, ht, _, _⟩
    · rw [h]; exact Nat.zero_le _
    · rw [ht]; exact le_refl _
  · refine hin.1.trans ?_
    show [Timer.mk (advance P gap s).nextTimerId ((advance P gap s).now + debounceDelay)] = _
    rw [hnow, hnext]
    rfl
  · refine hin.2.1.trans ?_
    show some (advance P gap s).nextTimerId = _
    rw [hnext]
  · rw [hrun]; exact h2.2.2
  · rw [hrun]
    obtain ⟨⟨i, ht, _⟩, _, _⟩ := h2
    rw [ht]; rfl
  · rw [hrun2]; exact h3.2.1
  · rw [hrun2]; exact h3.1
  · rw [hrun2]; exact h3.2.2

/-- C11, on the specification's example: from the initial state, the keystrokes `c`,
`ca`, `cat` 50 ms apart and then 300 ms without an event run one automatic search,
for `cat`, which is the one query the scorer receives. -/
theorem C11_debounce_single_search_witness :
    (run samplePlatform
        [Event.key 0 (js "c"), Event.key 50 (js "ca"), Event.key 50 (js "cat"), Event.wait 300]
        (initial scenarioPage)).autoSearches = [js "cat"]
      ∧ (run samplePlatform
          [Event.key 0 (js "c"), Event.key 50 (js "ca"), Event.key 50 (js "cat"),
            Event.wait 300]
          (initial scenarioPage)).page.searchCalls = [js "cat"] :=
  have h := C11_debounce_single_search samplePlatform (initial scenarioPage)
    (Reachable.init scenarioPage) 0 (js "c") [(50, js "ca"), (50, js "cat")] (by decide) 300
    (by decide)
  ⟨h.2.2.2.2.2.1.trans (by decide), by decide⟩

end SearchEngine
